import Mathlib

/-!
# no-invalid-this (with the Node listener exception)

A shallow embedding of `src/no-invalid-this.js`: the rule keeps a stack of
checking contexts (frames), one per function and one for the program, decides
lazily whether `this` is valid in the top frame, and treats a function passed
as the callback of `x.on(...)`, `x.once(...)`, ... as having a valid `this`.

Conventions of the embedding

* A syntax-tree node is a JavaScript object.  Its identity is the field `id`;
  the fields the rule reads are the remaining fields.  A field that may be
  missing (`undefined`/`null`) is an `Option`.
* Reading a property of `undefined` throws a `TypeError`; the run of the rule
  is aborted by it.  Code that can throw returns `Except JsError _`.
* The stack is a JavaScript array: `push` appends at the end, `pop` removes the
  last element, the current frame is the last element.
-/

namespace NoInvalidThis

/-! ## Syntax-tree nodes as far as the rule reads them -/

/-- The exception a property read on `undefined` raises. -/
inductive JsError where
  | typeError
  deriving DecidableEq, Repr

/-- Equality of results is decidable, so that runs on concrete inputs can be
evaluated. -/
instance instDecidableEqExcept {ε α : Type} [DecidableEq ε] [DecidableEq α] :
    DecidableEq (Except ε α)
  | .ok a, .ok b =>
    if h : a = b then isTrue (by rw [h]) else isFalse (fun h' => h (Except.ok.inj h'))
  | .error a, .error b =>
    if h : a = b then isTrue (by rw [h]) else isFalse (fun h' => h (Except.error.inj h'))
  | .ok _, .error _ => isFalse (fun h => by cases h)
  | .error _, .ok _ => isFalse (fun h => by cases h)

/-- The object stored in `callee.property`: `name` is `undefined` for a node
that has no string `name` (a literal key, for instance). -/
structure PropertyNode where
  type : String
  name : Option String
  deriving DecidableEq, Repr

/-- The object stored in `callExp.callee`.  `computed` is the ESTree flag of a
member expression written `obj[key]`; the rule never reads it. -/
structure CalleeNode where
  type : String
  computed : Bool
  property : Option PropertyNode
  deriving DecidableEq, Repr

/-- The value stored in `callExp.arguments`: missing, some value that is not
an array, or an array of objects given by their identities. -/
inductive ArgumentsValue where
  | absent
  | notArray
  | array (elems : List Nat)
  deriving DecidableEq, Repr

/-- The object stored in `node.parent`. -/
structure ParentNode where
  type : String
  callee : Option CalleeNode
  arguments : ArgumentsValue
  deriving DecidableEq, Repr

/-- A node handed to a handler of the rule. `sourceType` is only present on a
`Program` node. -/
structure Node where
  id : Nat
  type : String
  parent : Option ParentNode
  sourceType : Option String
  deriving DecidableEq, Repr

/-! ## The listener matcher -/

/-- The method names that register a listener (`listenersArray`). -/
def listenersArray : List String :=
  ["on", "once", "addListener", "prependListener", "prependOnceListener"]

/-- The method `Array.prototype.indexOf` on an array of strings: the first
index of `x`, or `-1` when `x` does not occur. -/
def indexOf (xs : List String) (x : String) : Int :=
  if xs.indexOf x < xs.length then (xs.indexOf x : Int) else -1

/-- The test `Array.isArray(args) && args.length === 2 && args[1] == node`,
the negation of the guard on lines 103-104. Two objects are loosely equal
exactly when they are the same object. -/
def secondOfTwo (args : ArgumentsValue) (node : Node) : Bool :=
  match args with
  | .array elems => elems.length == 2 && elems.get? 1 == some node.id
  | _ => false

/-- The function `isListener(node)` of the source. The last line reads
`callee.property.name`, which throws when `callee.property` is missing;
`indexOf` compares with `===`, so a missing `name` is not found. -/
def isListener (node : Node) : Except JsError Bool :=
  if node.type != "FunctionExpression" then .ok false
  else
    match node.parent with
    | none => .ok false
    | some callExp =>
      if callExp.type != "CallExpression" then .ok false
      else
        match callExp.callee with
        | none => .ok false
        | some callee =>
          if callee.type != "MemberExpression" then .ok false
          else if !(secondOfTwo callExp.arguments node) then .ok false
          else
            match callee.property with
            | none => .error .typeError
            | some property =>
              match property.name with
              | none => .ok false
              | some name => .ok (indexOf listenersArray name != -1)

/-- The listener shape in the words of the specification: the parent is a call
expression, its callee is a member expression, the call has exactly two
arguments, the node is the second one, and the name of the callee's property
is one of the five registration methods. -/
def ListenerShape (node : Node) : Prop :=
  ∃ callExp callee property name,
    node.parent = some callExp ∧ callExp.type = "CallExpression" ∧
    callExp.callee = some callee ∧ callee.type = "MemberExpression" ∧
    (∃ first, callExp.arguments = .array [first, node.id]) ∧
    callee.property = some property ∧ property.name = some name ∧
    name ∈ ["on", "once", "addListener", "prependListener", "prependOnceListener"]

/-! ## The host: scopes, options, the default-binding predicate -/

/-- A child scope of the scope of the program, as far as the rule reads it. -/
structure ChildScope where
  isStrict : Bool
  deriving DecidableEq, Repr

/-- The object `context.getScope()` returns, as far as the rule reads it. -/
structure Scope where
  isStrict : Bool
  childScopes : List ChildScope
  deriving DecidableEq, Repr

/-- The object `context.options[0]`; `capIsConstructor` may be missing. -/
structure Options where
  capIsConstructor : Option Bool
  deriving DecidableEq, Repr

/-- The object `context.parserOptions.ecmaFeatures`; `globalReturn` is read
for its truthiness only, a missing value is falsy. -/
structure EcmaFeatures where
  globalReturn : Bool
  deriving DecidableEq, Repr

/-- What the rule consumes from ESLint. `getScope node` is the value of
`context.getScope()` while the handler for `node` runs.
`isDefaultThisBinding node cap` is
`astUtils.isDefaultThisBinding(node, sourceCode, { capIsConstructor: cap })`
for the source code of the run. -/
structure Context where
  options : Option Options
  ecmaFeatures : Option EcmaFeatures
  getScope : Node → Scope
  isDefaultThisBinding : Node → Bool → Bool

/-- The constant `capIsConstructor` of `create`:
`(context.options[0] || {}).capIsConstructor !== false`. -/
def capIsConstructor (context : Context) : Bool :=
  match context.options with
  | none => true
  | some options => options.capIsConstructor != some false

/-! ## The stack of checking contexts -/

/-- One checking context: the object literal pushed on the stack. -/
structure Frame where
  init : Bool
  node : Node
  valid : Bool
  deriving DecidableEq, Repr

/-- The method `stack.getCurrent`: returns the current frame together with the
stack after the call. The frame is updated in place when it was not
initialised; `a || b` evaluates `b` only when `a` is false. On an empty stack
`current` is `undefined` and `current.init` throws. -/
def getCurrent (context : Context) (stack : List Frame) :
    Except JsError (Frame × List Frame) :=
  match stack.getLast? with
  | none => .error .typeError
  | some current =>
    if !current.init then
      match (if !(context.isDefaultThisBinding current.node (capIsConstructor context))
             then .ok true else isListener current.node) with
      | .error e => .error e
      | .ok valid =>
        let updated : Frame := { init := true, node := current.node, valid := valid }
        .ok (updated, stack.dropLast ++ [updated])
    else .ok (current, stack)

/-- The function `enterFunction(node)`. -/
def enterFunction (context : Context) (node : Node) (stack : List Frame) : List Frame :=
  stack ++ [{ init := !(context.getScope node).isStrict, node := node, valid := true }]

/-- The function `exitFunction()`; `pop` on an empty array does nothing. -/
def exitFunction (stack : List Frame) : List Frame :=
  stack.dropLast

/-! ## Diagnostics and handlers -/

/-- The table `meta.messages`. -/
def messages : List (String × String) :=
  [("unexpectedThisNode", "Unexpected \x27this\x27.")]

/-- The argument of `context.report`. -/
structure Report where
  node : Node
  messageId : String
  deriving DecidableEq, Repr

/-- The text of a diagnostic, looked up in `meta.messages`. -/
def Report.message (r : Report) : Option String :=
  (messages.find? (fun m => m.1 == r.messageId)).map Prod.snd

/-- The state of one run of the rule: the stack and the diagnostics reported
so far, oldest first. -/
structure State where
  stack : List Frame
  reports : List Report
  deriving DecidableEq, Repr

/-- The handler `Program(node)`. `scope.childScopes[0].isStrict` is read only
when the first two disjuncts are false and `globalReturn` is truthy, and
throws when there is no child scope. -/
def Program (context : Context) (node : Node) (s : State) : Except JsError State :=
  let scope := context.getScope node
  let features := context.ecmaFeatures.getD { globalReturn := false }
  let push (strict : Bool) : Except JsError State :=
    .ok { s with stack := s.stack ++ [{ init := true, node := node, valid := !strict }] }
  if scope.isStrict || node.sourceType == some "module" then push true
  else if features.globalReturn then
    match scope.childScopes.head? with
    | none => .error .typeError
    | some child => push child.isStrict
  else push false

/-- The handler `"Program:exit"()`. -/
def ProgramExit (s : State) : State :=
  { s with stack := s.stack.dropLast }

/-- The handler `ThisExpression(node)`. -/
def ThisExpression (context : Context) (node : Node) (s : State) : Except JsError State :=
  match getCurrent context s.stack with
  | .error e => .error e
  | .ok (current, stack) =>
    if !current.valid then
      .ok { stack := stack, reports := s.reports ++ [{ node := node, messageId := "unexpectedThisNode" }] }
    else .ok { stack := stack, reports := s.reports }

/-! ## Traversal -/

/-- The events of the tree walker the rule listens to. -/
inductive Event where
  | program (node : Node)
  | programExit
  | functionDeclaration (node : Node)
  | functionDeclarationExit
  | functionExpression (node : Node)
  | functionExpressionExit
  | thisExpression (node : Node)
  deriving DecidableEq, Repr

/-- The handler table returned by `create`: one event, one handler. -/
def step (context : Context) (s : State) : Event → Except JsError State
  | .program node => Program context node s
  | .programExit => .ok (ProgramExit s)
  | .functionDeclaration node => .ok { s with stack := enterFunction context node s.stack }
  | .functionDeclarationExit => .ok { s with stack := exitFunction s.stack }
  | .functionExpression node => .ok { s with stack := enterFunction context node s.stack }
  | .functionExpressionExit => .ok { s with stack := exitFunction s.stack }
  | .thisExpression node => ThisExpression context node s

/-- A run of the rule over a sequence of events; an exception aborts it. -/
def run (context : Context) (s : State) : List Event → Except JsError State
  | [] => .ok s
  | e :: es =>
    match step context s e with
    | .error err => .error err
    | .ok s' => run context s' es

/-- The nesting of function frames inside a piece of a traversal: the number
of functions open after `events` when `depth` were open before, or `none` when
the piece closes a function it did not open or contains a program event. -/
def nesting (depth : Nat) : List Event → Option Nat
  | [] => some depth
  | .functionDeclaration _ :: es => nesting (depth + 1) es
  | .functionExpression _ :: es => nesting (depth + 1) es
  | .functionDeclarationExit :: es =>
    match depth with
    | 0 => none
    | d + 1 => nesting d es
  | .functionExpressionExit :: es =>
    match depth with
    | 0 => none
    | d + 1 => nesting d es
  | .thisExpression _ :: es => nesting depth es
  | .program _ :: _ => none
  | .programExit :: _ => none

/-- The nodes of the `this` visits of a sequence of events, in visit order. -/
def thisNodes : List Event → List Node
  | [] => []
  | .thisExpression node :: es => node :: thisNodes es
  | _ :: es => thisNodes es

/-! ## Sample inputs -/

/-- The callee `stream.on`. -/
def calleeOn : CalleeNode :=
  { type := "MemberExpression", computed := false,
    property := some { type := "Identifier", name := some "on" } }

/-- The callback of `stream.on('data', function (data) { this.end(); })`. -/
def listenerFn : Node :=
  { id := 2, type := "FunctionExpression",
    parent := some { type := "CallExpression", callee := some calleeOn, arguments := .array [1, 2] },
    sourceType := none }

/-- The callback of `stream.foo('data', function (data) { this.end(); })`. -/
def fooFn : Node :=
  { id := 2, type := "FunctionExpression",
    parent := some { type := "CallExpression",
                     callee := some { type := "MemberExpression", computed := false,
                                      property := some { type := "Identifier", name := some "foo" } },
                     arguments := .array [1, 2] },
    sourceType := none }

/-- The callback of `stream[on]('data', function (data) { this.end(); })`,
where `on` is a variable. -/
def computedFn : Node :=
  { id := 2, type := "FunctionExpression",
    parent := some { type := "CallExpression",
                     callee := some { type := "MemberExpression", computed := true,
                                      property := some { type := "Identifier", name := some "on" } },
                     arguments := .array [1, 2] },
    sourceType := none }

/-- The declaration `function f() { this.x = 1; }`. -/
def declFn : Node :=
  { id := 3, type := "FunctionDeclaration",
    parent := some { type := "Program", callee := none, arguments := .absent },
    sourceType := none }

/-- A `this` node. -/
def thisNode : Node :=
  { id := 4, type := "ThisExpression",
    parent := some { type := "MemberExpression", callee := none, arguments := .absent },
    sourceType := none }

/-- A program node of a script. -/
def scriptNode : Node :=
  { id := 0, type := "Program", parent := none, sourceType := some "script" }

/-- A program node of a module. -/
def moduleNode : Node :=
  { id := 0, type := "Program", parent := none, sourceType := some "module" }

/-- A host in which every scope is strict and every function has the default
`this` binding. -/
def strictContext : Context :=
  { options := none, ecmaFeatures := none,
    getScope := fun _ => { isStrict := true, childScopes := [] },
    isDefaultThisBinding := fun _ _ => true }

/-- A host in which no scope is strict and every function has the default
`this` binding. -/
def sloppyContext : Context :=
  { options := none, ecmaFeatures := none,
    getScope := fun _ => { isStrict := false, childScopes := [] },
    isDefaultThisBinding := fun _ _ => true }

/-- The value the lazy initialisation stores in `valid`:
`!isDefaultThisBinding(node, ...) || isListener(node)`, the second operand
evaluated only when the first is false. -/
def lazyValid (context : Context) (node : Node) : Except JsError Bool :=
  if !(context.isDefaultThisBinding node (capIsConstructor context)) then .ok true
  else isListener node

/-- How `getCurrent` may change a frame: not at all, or from not initialised to
initialised with the lazily computed `valid`. -/
def Settles (context : Context) (f g : Frame) : Prop :=
  g = f ∨ (f.init = false ∧ ∃ v, lazyValid context f.node = .ok v ∧
    g = { init := true, node := f.node, valid := v })

/-- The strictness condition of the handler `Program`: the scope of the
program is strict, or the source is a module, or `globalReturn` is on and the
first child scope is strict. -/
def RootStrict (context : Context) (node : Node) : Prop :=
  (context.getScope node).isStrict = true ∨ node.sourceType = some "module" ∨
    ((context.ecmaFeatures.getD { globalReturn := false }).globalReturn = true ∧
      ∃ child, (context.getScope node).childScopes.head? = some child ∧ child.isStrict = true)

/-- The value of `valid` that `getCurrent` hands out for a frame on top of the
stack: the stored one when the frame is initialised, the lazily computed one
otherwise. -/
def frameValid (context : Context) (f : Frame) : Except JsError Bool :=
  if f.init then .ok f.valid else lazyValid context f.node

/-- The flag a frame stands for: its `frameValid`, and `true` for a frame on
which the lazy computation would throw (such a frame never yields a
diagnostic). -/
def flagOf (context : Context) (f : Frame) : Bool :=
  match frameValid context f with
  | .ok v => v
  | .error _ => true

/-- The host with the option `capIsConstructor` set to `cap`, everything else
as in `context`. -/
def withCap (context : Context) (cap : Bool) : Context :=
  { context with options := some { capIsConstructor := some cap } }

/-- The listener shape restricted to the static form `x.on(...)` of the
specification: the listener shape with a callee that is not a computed member
access. -/
def StaticListenerShape (node : Node) : Prop :=
  ∃ callExp callee property name,
    node.parent = some callExp ∧ callExp.type = "CallExpression" ∧
    callExp.callee = some callee ∧ callee.type = "MemberExpression" ∧
    callee.computed = false ∧
    (∃ first, callExp.arguments = .array [first, node.id]) ∧
    callee.property = some property ∧ property.name = some name ∧
    name ∈ ["on", "once", "addListener", "prependListener", "prependOnceListener"]

/-! ## An eager reference for the lazy stack

The reference decides at the entry of a function whether a `this` directly
inside it is reported, and keeps one boolean per open frame. -/

/-- Reference definition, in the words of the specification: a `this` directly
inside a function is reported exactly when the ambient scope at the entry is
strict, the default-binding predicate holds for the function, and
`isListener` is false for it. -/
def eagerReported (context : Context) (node : Node) : Bool :=
  (context.getScope node).isStrict &&
    context.isDefaultThisBinding node (capIsConstructor context) &&
    (isListener node == .ok false)

/-- Reference definition of the root condition as a boolean: strict scope,
module, or `globalReturn` with a strict first child scope. -/
def rootStrict (context : Context) (node : Node) : Bool :=
  (context.getScope node).isStrict || node.sourceType == some "module" ||
    ((context.ecmaFeatures.getD { globalReturn := false }).globalReturn &&
      (match (context.getScope node).childScopes.head? with
       | some child => child.isStrict
       | none => false))

/-- The state of the reference: one `valid` flag per open frame, and the
diagnostics. -/
structure EagerState where
  stack : List Bool
  reports : List Report
  deriving DecidableEq, Repr

/-- One event of the reference: frames are decided when pushed, a `this` visit
only reads the top flag. -/
def eagerStep (context : Context) (s : EagerState) : Event → Except JsError EagerState
  | .program node => .ok { s with stack := s.stack ++ [!(rootStrict context node)] }
  | .programExit => .ok { s with stack := s.stack.dropLast }
  | .functionDeclaration node =>
    .ok { s with stack := s.stack ++ [!(eagerReported context node)] }
  | .functionDeclarationExit => .ok { s with stack := s.stack.dropLast }
  | .functionExpression node =>
    .ok { s with stack := s.stack ++ [!(eagerReported context node)] }
  | .functionExpressionExit => .ok { s with stack := s.stack.dropLast }
  | .thisExpression node =>
    match s.stack.getLast? with
    | none => .error .typeError
    | some valid =>
      .ok { s with reports := s.reports ++
        (if valid then [] else [{ node := node, messageId := "unexpectedThisNode" }]) }

/-- A run of the reference over a sequence of events. -/
def eagerRun (context : Context) (s : EagerState) : List Event → Except JsError EagerState
  | [] => .ok s
  | e :: es =>
    match eagerStep context s e with
    | .error err => .error err
    | .ok s' => eagerRun context s' es

/-- The state of the reference that a state of the rule stands for. -/
def toEager (context : Context) (s : State) : EagerState :=
  { stack := s.stack.map (flagOf context), reports := s.reports }

/-- The order on `valid` flags used to compare two runs: the first flag is
true whenever the second one is. -/
def ValidWhenever (a b : Bool) : Prop :=
  b = true → a = true

/-! ## More sample inputs -/

/-- A host in which every scope is strict and no function has the default
`this` binding (methods, for instance). -/
def strictBoundContext : Context :=
  { options := none, ecmaFeatures := none,
    getScope := fun _ => { isStrict := true, childScopes := [] },
    isDefaultThisBinding := fun _ _ => false }

/-- A host in which every scope is strict and a function has the default
`this` binding unless `capIsConstructor` is on. -/
def capContext : Context :=
  { options := none, ecmaFeatures := none,
    getScope := fun _ => { isStrict := true, childScopes := [] },
    isDefaultThisBinding := fun _ cap => !cap }

/-- A function expression in listener position of a call whose
member-expression callee has no `property`. -/
def noPropertyFn : Node :=
  { id := 2, type := "FunctionExpression",
    parent := some { type := "CallExpression",
                     callee := some { type := "MemberExpression", computed := false,
                                      property := none },
                     arguments := .array [1, 2] },
    sourceType := none }

/-! ## The scenarios of the specification, evaluated -/

theorem scenario_strict_function :
    (run strictContext ⟨[], []⟩
      [.program scriptNode, .functionDeclaration declFn, .thisExpression thisNode,
       .functionDeclarationExit, .programExit]) =
      .ok ⟨[], [⟨thisNode, "unexpectedThisNode"⟩]⟩ := by
  decide

theorem scenario_listener :
    (run strictContext ⟨[], []⟩
      [.program scriptNode, .functionExpression listenerFn, .thisExpression thisNode,
       .functionExpressionExit, .programExit]) = .ok ⟨[], []⟩ := by
  decide

theorem scenario_other_method :
    (run strictContext ⟨[], []⟩
      [.program scriptNode, .functionExpression fooFn, .thisExpression thisNode,
       .functionExpressionExit, .programExit]) =
      .ok ⟨[], [⟨thisNode, "unexpectedThisNode"⟩]⟩ := by
  decide

theorem scenario_module_top_level :
    (run sloppyContext ⟨[], []⟩ [.program moduleNode, .thisExpression thisNode, .programExit]) =
      .ok ⟨[], [⟨thisNode, "unexpectedThisNode"⟩]⟩ := by
  decide

theorem scenario_sloppy_function :
    (run sloppyContext ⟨[], []⟩
      [.program scriptNode, .functionDeclaration declFn, .thisExpression thisNode,
       .functionDeclarationExit, .programExit]) = .ok ⟨[], []⟩ := by
  decide

/-! ## The listener matcher: lemmas -/

theorem indexOf_ne_neg_one (xs : List String) (x : String) :
    (indexOf xs x != -1) = true ↔ x ∈ xs := by
  unfold indexOf
  by_cases h : xs.indexOf x < xs.length
  · have hx : x ∈ xs := List.indexOf_lt_length.mp h
    simp only [h, if_true, hx, iff_true, bne_iff_ne, ne_eq]
    omega
  · have hx : x ∉ xs := fun hx => h (List.indexOf_lt_length.mpr hx)
    simp [h, hx]

theorem secondOfTwo_iff (args : ArgumentsValue) (node : Node) :
    secondOfTwo args node = true ↔ ∃ first, args = .array [first, node.id] := by
  cases args with
  | absent => simp [secondOfTwo]
  | notArray => simp [secondOfTwo]
  | array elems =>
    match elems with
    | [] => simp [secondOfTwo]
    | [a] => simp [secondOfTwo]
    | [a, b] =>
      simp only [secondOfTwo, List.length_cons, List.length_nil, List.get?_cons_succ,
        List.get?_cons_zero, ArgumentsValue.array.injEq, List.cons.injEq, and_true]
      constructor
      · intro hb
        have : b = node.id := by simpa using hb
        exact ⟨a, rfl, this⟩
      · rintro ⟨first, -, hb⟩
        simp [hb]
    | a :: b :: c :: rest => simp [secondOfTwo]

theorem isListener_ok_true_iff (node : Node) (h : node.type = "FunctionExpression") :
    isListener node = .ok true ↔ ListenerShape node := by
  obtain ⟨id, type, parent, sourceType⟩ := node
  simp only at h
  subst h
  unfold isListener ListenerShape
  simp only [bne_self_eq_false, Bool.false_eq_true, if_false]
  match parent with
  | none => simp
  | some ⟨ptype, callee, args⟩ =>
    simp only [Option.some.injEq, exists_and_left, exists_eq_left']
    by_cases hct : ptype = "CallExpression"
    swap
    · simp [hct]
    subst hct
    match callee with
    | none => simp
    | some ⟨ctype, computed, property⟩ =>
      by_cases hmt : ctype = "MemberExpression"
      swap
      · simp [hmt]
      subst hmt
      by_cases hargs : secondOfTwo args ⟨id, "FunctionExpression", some ⟨"CallExpression",
          some ⟨"MemberExpression", computed, property⟩, args⟩, sourceType⟩ = true
      swap
      · have hno := fun hex => hargs ((secondOfTwo_iff _ _).mpr hex)
        simp only at hno
        simp only [hargs, Bool.not_false, if_true]
        constructor
        · intro hf
          cases hf
        · rintro ⟨-, -, -, -, hx, -⟩
          exact (hno hx).elim
      have hex := (secondOfTwo_iff _ _).mp hargs
      simp only at hex
      match property with
      | none => simp [hargs]
      | some ⟨prtype, name⟩ =>
        match name with
        | none => simp [hargs]
        | some name =>
          have hmem := indexOf_ne_neg_one listenersArray name
          simp only [listenersArray] at hmem
          simp only [hargs, bne_self_eq_false, Bool.false_eq_true, if_false,
            Bool.not_true, Except.ok.injEq, Option.some.injEq, exists_and_left,
            exists_eq_left', listenersArray, hmem]
          constructor
          · intro hin
            exact ⟨trivial, trivial, hex, hin⟩
          · rintro ⟨-, -, -, hin⟩
            exact hin

/-! ## The stack: lemmas -/

theorem getCurrent_concat (context : Context) (rest : List Frame) (f : Frame) :
    getCurrent context (rest ++ [f]) =
      if f.init = true then .ok (f, rest ++ [f])
      else
        match lazyValid context f.node with
        | .error e => .error e
        | .ok v => .ok (⟨true, f.node, v⟩, rest ++ [⟨true, f.node, v⟩]) := by
  unfold getCurrent lazyValid
  rw [List.getLast?_concat, List.dropLast_concat]
  cases hi : f.init <;> simp [hi]

theorem getCurrent_settles (context : Context) (rest : List Frame) (f g : Frame)
    (stack : List Frame) (h : getCurrent context (rest ++ [f]) = .ok (g, stack)) :
    stack = rest ++ [g] ∧ Settles context f g := by
  rw [getCurrent_concat] at h
  by_cases hi : f.init = true
  · rw [if_pos hi] at h
    cases h
    exact ⟨rfl, Or.inl rfl⟩
  · rw [if_neg hi] at h
    cases hv : lazyValid context f.node with
    | error e => rw [hv] at h; cases h
    | ok v =>
      rw [hv] at h
      cases h
      refine ⟨rfl, Or.inr ⟨?_, v, hv, rfl⟩⟩
      simpa using hi

theorem Settles.trans {context : Context} {f g k : Frame}
    (h₁ : Settles context f g) (h₂ : Settles context g k) : Settles context f k := by
  rcases h₁ with rfl | ⟨hf, v, hv, rfl⟩
  · exact h₂
  · rcases h₂ with rfl | ⟨hg, -⟩
    · exact Or.inr ⟨hf, v, hv, rfl⟩
    · cases hg

theorem Settles.node_eq {context : Context} {f g : Frame} (h : Settles context f g) :
    g.node = f.node := by
  rcases h with rfl | ⟨-, v, -, rfl⟩ <;> rfl

theorem Settles.of_init {context : Context} {f g : Frame} (h : Settles context f g)
    (hi : f.init = true) : g = f := by
  rcases h with rfl | ⟨hf, -⟩
  · rfl
  · rw [hi] at hf; cases hf

/-- What `ThisExpression` does once `getCurrent` has returned. -/
theorem ThisExpression_of_getCurrent (context : Context) (node : Node) (s : State)
    (current : Frame) (stack : List Frame)
    (h : getCurrent context s.stack = .ok (current, stack)) :
    ThisExpression context node s =
      .ok ⟨stack, s.reports ++
        (if current.valid = true then [] else [⟨node, "unexpectedThisNode"⟩])⟩ := by
  unfold ThisExpression
  rw [h]
  cases hv : current.valid <;> simp [hv]

theorem ThisExpression_ok (context : Context) (node : Node) (s s' : State)
    (h : ThisExpression context node s = .ok s') :
    ∃ current, getCurrent context s.stack = .ok (current, s'.stack) ∧
      s'.reports = s.reports ++
        (if current.valid = true then [] else [⟨node, "unexpectedThisNode"⟩]) := by
  cases hg : getCurrent context s.stack with
  | error e =>
    unfold ThisExpression at h
    rw [hg] at h
    cases h
  | ok r =>
    obtain ⟨current, stack⟩ := r
    rw [ThisExpression_of_getCurrent context node s current stack hg] at h
    cases h
    exact ⟨current, rfl, rfl⟩

/-! ## Traversals: lemmas -/

theorem run_cons_ok (context : Context) (s s' : State) (e : Event) (es : List Event)
    (h : run context s (e :: es) = .ok s') :
    ∃ s₁, step context s e = .ok s₁ ∧ run context s₁ es = .ok s' := by
  cases hs : step context s e with
  | error err =>
    unfold run at h
    rw [hs] at h
    cases h
  | ok s₁ =>
    unfold run at h
    rw [hs] at h
    exact ⟨s₁, rfl, h⟩

theorem run_append_ok (context : Context) (es₁ es₂ : List Event) (s s₁ : State)
    (h : run context s es₁ = .ok s₁) :
    run context s (es₁ ++ es₂) = run context s₁ es₂ := by
  induction es₁ generalizing s with
  | nil =>
    unfold run at h
    cases h
    rfl
  | cons e es ih =>
    obtain ⟨t, ht, hrun⟩ := run_cons_ok context s s₁ e es h
    rw [List.cons_append]
    conv_lhs => unfold run
    rw [ht]
    exact ih t hrun

/-- Frames below a frame are out of reach of the events of a well-bracketed
piece of a traversal, and the frame itself can only be settled by them. The
piece starts with `above.length` functions open above `f` and ends with `k`. -/
theorem run_nested (context : Context) (pre : List Frame) :
    ∀ (evs : List Event) (f : Frame) (above : List Frame) (r : List Report) (k : Nat)
      (s' : State),
      nesting above.length evs = some k →
      run context ⟨pre ++ f :: above, r⟩ evs = .ok s' →
      ∃ g above', s'.stack = pre ++ g :: above' ∧ above'.length = k ∧ Settles context f g := by
  intro evs
  induction evs with
  | nil =>
    intro f above r k s' hn hr
    unfold run at hr
    unfold nesting at hn
    cases hr
    cases hn
    exact ⟨f, above, rfl, rfl, Or.inl rfl⟩
  | cons e es ih =>
    intro f above r k s' hn hr
    obtain ⟨s₁, hstep, hrun⟩ := run_cons_ok context _ s' e es hr
    have enter : ∀ node, nesting (above.length + 1) es = some k →
        step context ⟨pre ++ f :: above, r⟩ e =
          .ok ⟨enterFunction context node (pre ++ f :: above), r⟩ →
        ∃ g above', s'.stack = pre ++ g :: above' ∧ above'.length = k ∧ Settles context f g := by
      intro node hn' he
      rw [he] at hstep
      cases hstep
      have hst : enterFunction context node (pre ++ f :: above) =
          pre ++ f :: (above ++ [⟨!(context.getScope node).isStrict, node, true⟩]) := by
        simp [enterFunction]
      rw [hst] at hrun
      exact ih f _ r k s' (by simpa using hn') hrun
    have leave : (∀ d, above.length = d + 1 → nesting d es = some k) → above.length ≠ 0 →
        step context ⟨pre ++ f :: above, r⟩ e = .ok ⟨exitFunction (pre ++ f :: above), r⟩ →
        ∃ g above', s'.stack = pre ++ g :: above' ∧ above'.length = k ∧ Settles context f g := by
      intro hn' hne he
      rw [he] at hstep
      cases hstep
      rcases List.eq_nil_or_concat above with rfl | ⟨a₀, x, rfl⟩
      · exact (hne rfl).elim
      · rw [List.concat_eq_append] at hrun hn'
        have hst : exitFunction (pre ++ f :: (a₀ ++ [x])) = pre ++ f :: a₀ := by
          unfold exitFunction
          rw [← List.cons_append, ← List.append_assoc, List.dropLast_concat]
        rw [hst] at hrun
        exact ih f a₀ r k s' (hn' a₀.length (by simp)) hrun
    cases e with
    | program node => simp [nesting] at hn
    | programExit => simp [nesting] at hn
    | functionDeclaration node => exact enter node (by simpa [nesting] using hn) rfl
    | functionExpression node => exact enter node (by simpa [nesting] using hn) rfl
    | functionDeclarationExit =>
      refine leave ?_ ?_ rfl
      · intro d hd
        rw [hd] at hn
        simpa [nesting] using hn
      · intro h0
        rw [h0] at hn
        simp [nesting] at hn
    | functionExpressionExit =>
      refine leave ?_ ?_ rfl
      · intro d hd
        rw [hd] at hn
        simpa [nesting] using hn
      · intro h0
        rw [h0] at hn
        simp [nesting] at hn
    | thisExpression node =>
      have hn' : nesting above.length es = some k := by simpa [nesting] using hn
      obtain ⟨current, hg, -⟩ := ThisExpression_ok context node _ s₁ hstep
      simp only at hg
      rcases List.eq_nil_or_concat above with rfl | ⟨a₀, x, rfl⟩
      · obtain ⟨hst, hset⟩ := getCurrent_settles context pre f current s₁.stack hg
        obtain ⟨g, above', h1, h2, h3⟩ := ih current [] s₁.reports k s' hn' (by
          have : s₁ = ⟨pre ++ [current], s₁.reports⟩ := by
            cases s₁
            simp only at hst
            rw [hst]
          rw [← this]
          exact hrun)
        exact ⟨g, above', h1, h2, hset.trans h3⟩
      · rw [List.concat_eq_append] at hg hn'
        have hre : pre ++ f :: (a₀ ++ [x]) = (pre ++ f :: a₀) ++ [x] := by simp
        rw [hre] at hg
        obtain ⟨hst, -⟩ := getCurrent_settles context _ x current s₁.stack hg
        refine ih f (a₀ ++ [current]) s₁.reports k s' (by simpa using hn') ?_
        have : s₁ = ⟨pre ++ f :: (a₀ ++ [current]), s₁.reports⟩ := by
          cases s₁
          simp only at hst
          rw [hst]
          simp
        rw [← this]
        exact hrun

theorem lazyValid_of_listener (context : Context) (node : Node)
    (hty : node.type = "FunctionExpression") (hshape : ListenerShape node) :
    lazyValid context node = .ok true := by
  unfold lazyValid
  split
  · rfl
  · exact (isListener_ok_true_iff node hty).mpr hshape

/-- A frame pushed with `valid: true` whose lazily computed value is `true`
is returned by `getCurrent` as initialised and valid, whether or not it has
been settled before. -/
theorem getCurrent_of_lazyValid_true (context : Context) (pre : List Frame) (node : Node)
    (i : Bool) (g : Frame) (hl : lazyValid context node = .ok true)
    (hs : Settles context ⟨i, node, true⟩ g) :
    getCurrent context (pre ++ [g]) =
      .ok (⟨true, node, true⟩, pre ++ [⟨true, node, true⟩]) := by
  rw [getCurrent_concat]
  rcases hs with rfl | ⟨-, v, hv, rfl⟩
  · cases i
    · simp [hl]
    · simp
  · simp only at hv
    rw [hl] at hv
    cases hv
    simp

theorem Program_ok (context : Context) (node : Node) (s₀ s₁ : State)
    (h : Program context node s₀ = .ok s₁) :
    ∃ valid, s₁ = ⟨s₀.stack ++ [⟨true, node, valid⟩], s₀.reports⟩ ∧
      (valid = false ↔ RootStrict context node) := by
  unfold Program at h
  unfold RootStrict
  by_cases h1 : (context.getScope node).isStrict = true
  · simp only [h1, Bool.true_or, if_true] at h
    cases h
    exact ⟨false, rfl, by simp [h1]⟩
  by_cases h2 : node.sourceType = some "module"
  · simp only [h2, beq_self_eq_true, Bool.or_true, if_true] at h
    cases h
    exact ⟨false, rfl, by simp [h2]⟩
  have h2' : (node.sourceType == some "module") = false := by simpa using h2
  have h1' : (context.getScope node).isStrict = false := by simpa using h1
  simp only [h1', h2', Bool.or_false, Bool.false_eq_true, if_false] at h
  by_cases h3 : (context.ecmaFeatures.getD { globalReturn := false }).globalReturn = true
  · simp only [h3, if_true] at h
    cases hc : (context.getScope node).childScopes.head? with
    | none => rw [hc] at h; cases h
    | some child =>
      rw [hc] at h
      cases h
      refine ⟨!child.isStrict, rfl, ?_⟩
      simp [h1', h2, h3]
  · simp only [h3, if_false] at h
    cases h
    exact ⟨true, rfl, by simp [h1', h2, h3]⟩

/-- The diagnostics of a run extend those reported before it; the new ones
are anchored, in visit order, at some of the visited `this` nodes. -/
theorem run_reports (context : Context) :
    ∀ (evs : List Event) (s s' : State), run context s evs = .ok s' →
      ∃ new, s'.reports = s.reports ++ new ∧
        (new.map Report.node).Sublist (thisNodes evs) ∧
        ∀ r ∈ new, r.messageId = "unexpectedThisNode" := by
  intro evs
  induction evs with
  | nil =>
    intro s s' h
    unfold run at h
    cases h
    exact ⟨[], by simp, by simp [thisNodes], by simp⟩
  | cons e es ih =>
    intro s s' h
    obtain ⟨s₁, hstep, hrun⟩ := run_cons_ok context s s' e es h
    obtain ⟨new, hnew, hsub, hid⟩ := ih s₁ s' hrun
    have same : s₁.reports = s.reports → thisNodes (e :: es) = thisNodes es →
        ∃ new, s'.reports = s.reports ++ new ∧
          (new.map Report.node).Sublist (thisNodes (e :: es)) ∧
          ∀ r ∈ new, r.messageId = "unexpectedThisNode" := by
      intro hr ht
      rw [ht, ← hr]
      exact ⟨new, hnew, hsub, hid⟩
    cases e with
    | program node =>
      obtain ⟨valid, hs, -⟩ := Program_ok context node s s₁ hstep
      exact same (by rw [hs]) rfl
    | programExit => cases hstep; exact same rfl rfl
    | functionDeclaration node => cases hstep; exact same rfl rfl
    | functionExpression node => cases hstep; exact same rfl rfl
    | functionDeclarationExit => cases hstep; exact same rfl rfl
    | functionExpressionExit => cases hstep; exact same rfl rfl
    | thisExpression node =>
      obtain ⟨current, -, hrep⟩ := ThisExpression_ok context node s s₁ hstep
      by_cases hv : current.valid = true
      · rw [if_pos hv, List.append_nil] at hrep
        refine ⟨new, by rw [hnew, hrep], ?_, hid⟩
        exact hsub.trans (List.sublist_cons_self _ _)
      · rw [if_neg hv] at hrep
        refine ⟨⟨node, "unexpectedThisNode"⟩ :: new, by rw [hnew, hrep]; simp, ?_, ?_⟩
        · simp only [List.map_cons, thisNodes]
          exact hsub.cons₂ node
        · intro r hr
          rcases List.mem_cons.mp hr with rfl | hr
          · rfl
          · exact hid r hr

/-! ## The claims -/

/-- Claim C1 (listener exception): a function expression that is the second of
exactly two arguments of a call whose callee is a member expression named
`on`, `once`, `addListener`, `prependListener` or `prependOnceListener` is
entered under a strict scope; after any well-bracketed piece of traversal
inside it that did not abort, its frame is on top of the stack and a `this`
visit reports nothing, whatever the default-binding predicate of the host
is. -/
theorem listener_this_not_reported (context : Context) (node thisN : Node) (s s' : State)
    (inner : List Event)
    (hty : node.type = "FunctionExpression") (hshape : ListenerShape node)
    (hstrict : (context.getScope node).isStrict = true)
    (hin : nesting 0 inner = some 0)
    (hrun : run context s (.functionExpression node :: inner) = .ok s') :
    ∃ f, s'.stack = s.stack ++ [f] ∧ f.node = node ∧
      ThisExpression context thisN s' =
        .ok ⟨s.stack ++ [⟨true, node, true⟩], s'.reports⟩ := by
  obtain ⟨s₁, hstep, hrest⟩ := run_cons_ok context s s' _ inner hrun
  cases hstep
  have hst : enterFunction context node s.stack = s.stack ++ [⟨false, node, true⟩] := by
    simp [enterFunction, hstrict]
  simp only [hst] at hrest
  obtain ⟨g, above, hg, hlen, hset⟩ :=
    run_nested context s.stack inner ⟨false, node, true⟩ [] s.reports 0 s' hin hrest
  have habove : above = [] := List.length_eq_zero.mp hlen
  subst habove
  refine ⟨g, hg, hset.node_eq, ?_⟩
  have hcur := getCurrent_of_lazyValid_true context s.stack node false g
    (lazyValid_of_listener context node hty hshape) hset
  rw [← hg] at hcur
  rw [ThisExpression_of_getCurrent context thisN s' _ _ hcur]
  simp

theorem listener_this_not_reported_witness :
    ∃ f, (⟨[⟨true, scriptNode, false⟩, ⟨false, listenerFn, true⟩], []⟩ : State).stack =
        [⟨true, scriptNode, false⟩] ++ [f] ∧ f.node = listenerFn ∧
      ThisExpression strictContext thisNode
          ⟨[⟨true, scriptNode, false⟩, ⟨false, listenerFn, true⟩], []⟩ =
        .ok ⟨[⟨true, scriptNode, false⟩] ++ [⟨true, listenerFn, true⟩], []⟩ :=
  listener_this_not_reported strictContext listenerFn thisNode
    ⟨[⟨true, scriptNode, false⟩], []⟩
    ⟨[⟨true, scriptNode, false⟩, ⟨false, listenerFn, true⟩], []⟩ []
    (by decide)
    ⟨_, _, _, _, rfl, by decide, rfl, by decide, ⟨1, rfl⟩, rfl, rfl, by decide⟩
    (by decide) (by decide) (by decide)

/-- Claim C2: for a function-expression node, `isListener` returns true exactly
when the parent is a call expression, the callee of that call is a member
expression, the call has exactly two arguments, the node is the second
argument (the same object), and the name of the callee's property is one of
`on`, `once`, `addListener`, `prependListener`, `prependOnceListener`. -/
theorem isListener_true_iff (node : Node) (h : node.type = "FunctionExpression") :
    isListener node = .ok true ↔ ListenerShape node :=
  isListener_ok_true_iff node h

theorem isListener_true_iff_witness :
    fooFn.type = "FunctionExpression" ∧
      (isListener fooFn = .ok true ↔ ListenerShape fooFn) :=
  ⟨by decide, isListener_true_iff fooFn (by decide)⟩

/-- Claim C3, evaluated at the call `stream[on]('data', function () { ... })`
whose callee is a computed member access: `isListener` returns true for the
callback, not false. -/
theorem isListener_computed_member :
    (computedFn.parent.bind (fun p => p.callee)).map (fun c => c.computed) = some true ∧
      isListener computedFn = .ok true := by
  decide

/-- Claim C4: `isListener` returns false, without raising, for a node that is
not a function expression (so for every node that is not function-like), for a
node without a parent or whose parent is not a call expression, for a parent
without a callee or whose callee is not a member expression, and for a parent
whose `arguments` is missing or not an array. -/
theorem isListener_false_of_malformed (node : Node)
    (h : node.type ≠ "FunctionExpression" ∨ node.parent = none ∨
      ∃ callExp, node.parent = some callExp ∧
        (callExp.type ≠ "CallExpression" ∨ callExp.callee = none ∨
          (∃ callee, callExp.callee = some callee ∧ callee.type ≠ "MemberExpression") ∨
          callExp.arguments = .absent ∨ callExp.arguments = .notArray)) :
    isListener node = .ok false := by
  obtain ⟨id, type, parent, sourceType⟩ := node
  unfold isListener
  by_cases hty : type = "FunctionExpression"
  swap
  · simp [hty]
  subst hty
  simp only [bne_self_eq_false, Bool.false_eq_true, if_false]
  rcases h with h | h | ⟨callExp, hp, h⟩
  · exact (h rfl).elim
  · simp only at h
    subst h
    rfl
  · simp only at hp
    subst hp
    obtain ⟨ptype, callee, args⟩ := callExp
    simp only at h
    by_cases hct : ptype = "CallExpression"
    swap
    · simp [hct]
    subst hct
    simp only [bne_self_eq_false, Bool.false_eq_true, if_false]
    match callee with
    | none => rfl
    | some ⟨ctype, computed, property⟩ =>
      by_cases hmt : ctype = "MemberExpression"
      swap
      · simp [hmt]
      subst hmt
      rcases h with h | h | ⟨c, hc, h⟩ | h | h
      · exact (h rfl).elim
      · cases h
      · cases hc
        exact (h rfl).elim
      · subst h
        simp [secondOfTwo]
      · subst h
        simp [secondOfTwo]

theorem isListener_false_of_malformed_witness :
    isListener { id := 7, type := "FunctionExpression", parent := none, sourceType := none } =
      .ok false :=
  isListener_false_of_malformed _ (Or.inr (Or.inl rfl))

/-- Claim C5 (lazy initialisation): on a non-empty stack whose top frame is not
initialised, `getCurrent` returns that frame with `init` set, the same node
and `valid` equal to `!isDefaultThisBinding(node, capIsConstructor) ||
isListener(node)`, and the stack differs from the old one in that frame only.
The second operand is not evaluated when the first is true. -/
theorem getCurrent_lazy_init (context : Context) (rest : List Frame) (f : Frame)
    (hinit : f.init = false) :
    (context.isDefaultThisBinding f.node (capIsConstructor context) = false →
      getCurrent context (rest ++ [f]) =
        .ok (⟨true, f.node, true⟩, rest ++ [⟨true, f.node, true⟩])) ∧
    (∀ l, isListener f.node = .ok l →
      getCurrent context (rest ++ [f]) =
        .ok (⟨true, f.node,
              !(context.isDefaultThisBinding f.node (capIsConstructor context)) || l⟩,
            rest ++ [⟨true, f.node,
              !(context.isDefaultThisBinding f.node (capIsConstructor context)) || l⟩])) := by
  rw [getCurrent_concat]
  simp only [hinit, Bool.false_eq_true, if_false, lazyValid]
  constructor
  · intro hd
    simp [hd]
  · intro l hl
    cases hd : context.isDefaultThisBinding f.node (capIsConstructor context) <;> simp [hl]

theorem getCurrent_lazy_init_witness :
    getCurrent strictContext ([⟨true, scriptNode, false⟩] ++ [⟨false, fooFn, true⟩]) =
      .ok (⟨true, fooFn, false⟩, [⟨true, scriptNode, false⟩] ++ [⟨true, fooFn, false⟩]) :=
  (getCurrent_lazy_init strictContext [⟨true, scriptNode, false⟩] ⟨false, fooFn, true⟩ rfl).2
    false (by decide)

/-- Claim C6 (caching): on a non-empty stack whose top frame is initialised,
`getCurrent` returns that frame as stored and the stack as it was, for every
host; and after any call of `getCurrent` that returned, a second call, even
under a host with other predicates, returns the same frame and the same
stack. -/
theorem getCurrent_cached (context other : Context) (rest : List Frame) (f : Frame) :
    (f.init = true →
      getCurrent context (rest ++ [f]) = .ok (f, rest ++ [f]) ∧
      getCurrent other (rest ++ [f]) = .ok (f, rest ++ [f])) ∧
    (∀ g stack, getCurrent context (rest ++ [f]) = .ok (g, stack) →
      getCurrent other stack = .ok (g, stack)) := by
  constructor
  · intro hinit
    constructor <;> rw [getCurrent_concat, if_pos hinit]
  · intro g stack h
    obtain ⟨hst, hset⟩ := getCurrent_settles context rest f g stack h
    subst hst
    rw [getCurrent_concat] at h ⊢
    by_cases hi : f.init = true
    · rw [if_pos hi] at h
      cases h
      rw [if_pos hi]
    · rcases hset with rfl | ⟨-, v, -, rfl⟩
      · rw [if_neg hi] at h
        cases hv : lazyValid context g.node with
        | error e => rw [hv] at h; cases h
        | ok v =>
          rw [hv] at h
          have hg : (⟨true, g.node, v⟩ : Frame) = g := (Prod.mk.inj (Except.ok.inj h)).1
          have hgi : g.init = true := by rw [← hg]
          exact (hi hgi).elim
      · simp

theorem getCurrent_cached_witness :
    (getCurrent strictContext ([⟨true, scriptNode, false⟩] ++ [⟨true, fooFn, false⟩]) =
        .ok (⟨true, fooFn, false⟩, [⟨true, scriptNode, false⟩] ++ [⟨true, fooFn, false⟩]) ∧
      getCurrent sloppyContext ([⟨true, scriptNode, false⟩] ++ [⟨true, fooFn, false⟩]) =
        .ok (⟨true, fooFn, false⟩, [⟨true, scriptNode, false⟩] ++ [⟨true, fooFn, false⟩])) ∧
    getCurrent sloppyContext [⟨true, scriptNode, false⟩, ⟨true, fooFn, false⟩] =
      .ok (⟨true, fooFn, false⟩, [⟨true, scriptNode, false⟩, ⟨true, fooFn, false⟩]) :=
  ⟨(getCurrent_cached strictContext sloppyContext [⟨true, scriptNode, false⟩]
      ⟨true, fooFn, false⟩).1 rfl,
   (getCurrent_cached strictContext sloppyContext [⟨true, scriptNode, false⟩]
      ⟨false, fooFn, true⟩).2 _ _ (by decide)⟩

/-- Claim C7 (top-level `this`): `Program` pushes the root frame already
initialised; after any well-bracketed piece of traversal that did not abort,
so while no function frame is open, the root frame is unchanged on top and a
`this` visit adds one diagnostic when the scope of the program is strict, or
the source is a module, or `globalReturn` is on and the first child scope is
strict, and adds none otherwise. Nothing in this depends on the
default-binding predicate or on `isListener`. -/
theorem program_this_reported_iff (context : Context) (node thisN : Node) (s₀ s₁ s₂ : State)
    (inner : List Event)
    (hp : Program context node s₀ = .ok s₁)
    (hin : nesting 0 inner = some 0)
    (hrun : run context s₁ inner = .ok s₂) :
    ∃ valid, s₁.stack = s₀.stack ++ [⟨true, node, valid⟩] ∧ s₂.stack = s₁.stack ∧
      (RootStrict context node →
        ThisExpression context thisN s₂ =
          .ok ⟨s₂.stack, s₂.reports ++ [⟨thisN, "unexpectedThisNode"⟩]⟩) ∧
      (¬ RootStrict context node → ThisExpression context thisN s₂ = .ok s₂) := by
  obtain ⟨valid, hs₁, hvalid⟩ := Program_ok context node s₀ s₁ hp
  subst hs₁
  obtain ⟨g, above, hg, hlen, hset⟩ :=
    run_nested context s₀.stack inner ⟨true, node, valid⟩ [] s₀.reports 0 s₂ hin hrun
  have habove : above = [] := List.length_eq_zero.mp hlen
  subst habove
  have hgf : g = ⟨true, node, valid⟩ := hset.of_init rfl
  subst hgf
  have hcur : getCurrent context s₂.stack = .ok (⟨true, node, valid⟩, s₂.stack) := by
    rw [hg, getCurrent_concat, if_pos rfl]
  have hthis := ThisExpression_of_getCurrent context thisN s₂ _ _ hcur
  refine ⟨valid, rfl, hg, ?_, ?_⟩
  · intro hstrict
    have hv : valid = false := hvalid.mpr hstrict
    subst hv
    rw [hthis]
    simp
  · intro hstrict
    have hv : valid = true := by
      cases valid
      · exact (hstrict (hvalid.mp rfl)).elim
      · rfl
    subst hv
    rw [hthis]
    simp

theorem program_this_reported_iff_witness :
    ∃ valid, (⟨[⟨true, moduleNode, false⟩], []⟩ : State).stack =
        (⟨[], []⟩ : State).stack ++ [⟨true, moduleNode, valid⟩] ∧
      (⟨[⟨true, moduleNode, false⟩], []⟩ : State).stack =
        (⟨[⟨true, moduleNode, false⟩], []⟩ : State).stack ∧
      (RootStrict sloppyContext moduleNode →
        ThisExpression sloppyContext thisNode ⟨[⟨true, moduleNode, false⟩], []⟩ =
          .ok ⟨(⟨[⟨true, moduleNode, false⟩], []⟩ : State).stack,
            (⟨[⟨true, moduleNode, false⟩], []⟩ : State).reports ++
              [⟨thisNode, "unexpectedThisNode"⟩]⟩) ∧
      (¬ RootStrict sloppyContext moduleNode →
        ThisExpression sloppyContext thisNode ⟨[⟨true, moduleNode, false⟩], []⟩ =
          .ok ⟨[⟨true, moduleNode, false⟩], []⟩) :=
  program_this_reported_iff sloppyContext moduleNode thisNode ⟨[], []⟩
    ⟨[⟨true, moduleNode, false⟩], []⟩ ⟨[⟨true, moduleNode, false⟩], []⟩ []
    (by decide) (by decide) (by decide)

/-- Claim C8 (function entry and exit): the handlers of `FunctionDeclaration`
and `FunctionExpression` push exactly one frame, with the entered node, with
`init` equal to the negation of the strictness of the ambient scope and with
`valid` true, on top of an unchanged stack; the exit handlers remove exactly
the top frame, whatever it has become. -/
theorem function_entry_exit (context : Context) (s : State) (node : Node) (top : Frame) :
    step context s (.functionDeclaration node) =
      .ok ⟨s.stack ++ [⟨!(context.getScope node).isStrict, node, true⟩], s.reports⟩ ∧
    step context s (.functionExpression node) =
      .ok ⟨s.stack ++ [⟨!(context.getScope node).isStrict, node, true⟩], s.reports⟩ ∧
    step context ⟨s.stack ++ [top], s.reports⟩ .functionDeclarationExit = .ok s ∧
    step context ⟨s.stack ++ [top], s.reports⟩ .functionExpressionExit = .ok s := by
  refine ⟨rfl, rfl, ?_, ?_⟩ <;> simp [step, exitFunction]

/-- Claim C9 as stated fails: in a strict scope the frame pushed by
`enterFunction` is not initialised. -/
theorem strict_entry_not_initialised :
    (strictContext.getScope declFn).isStrict = true ∧
      ¬ ∃ f, enterFunction strictContext declFn [] = [] ++ [f] ∧
        f.init = true ∧ f.valid = true := by
  refine ⟨rfl, ?_⟩
  rintro ⟨f, hf, hinit, -⟩
  have h : f = ⟨false, declFn, true⟩ := by
    have := List.head_eq_of_cons_eq hf
    exact this.symm
  rw [h] at hinit
  cases hinit

/-- Claim C9, amended: at a function entry under a strict ambient scope the
pushed frame is not initialised and holds `valid = true` as a placeholder; it
is under a scope that is not strict that the frame starts initialised with
`valid = true`. -/
theorem enterFunction_init_flag (context : Context) (node : Node) (stack : List Frame) :
    ((context.getScope node).isStrict = true →
      enterFunction context node stack = stack ++ [⟨false, node, true⟩]) ∧
    ((context.getScope node).isStrict = false →
      enterFunction context node stack = stack ++ [⟨true, node, true⟩]) := by
  constructor <;> intro h <;> simp [enterFunction, h]

theorem enterFunction_init_flag_witness :
    enterFunction strictContext declFn [⟨true, scriptNode, false⟩] =
        [⟨true, scriptNode, false⟩] ++ [⟨false, declFn, true⟩] ∧
      enterFunction sloppyContext declFn [⟨true, scriptNode, true⟩] =
        [⟨true, scriptNode, true⟩] ++ [⟨true, declFn, true⟩] :=
  ⟨(enterFunction_init_flag strictContext declFn [⟨true, scriptNode, false⟩]).1 rfl,
   (enterFunction_init_flag sloppyContext declFn [⟨true, scriptNode, true⟩]).2 rfl⟩

/-- Claim C10: when `getCurrent` returns a frame, `ThisExpression` adds exactly
one diagnostic, anchored at the visited node and with message id
`unexpectedThisNode`, whose text is the fixed message of the rule, if `valid`
of that frame is false, and adds none if it is true; so the diagnostics a run
adds are anchored at a subsequence, in visit order, of the visited `this`
nodes. -/
theorem ThisExpression_reports (context : Context) (node : Node) (s : State)
    (current : Frame) (stack : List Frame)
    (h : getCurrent context s.stack = .ok (current, stack)) :
    (current.valid = false →
      ThisExpression context node s =
        .ok ⟨stack, s.reports ++ [⟨node, "unexpectedThisNode"⟩]⟩) ∧
    (current.valid = true → ThisExpression context node s = .ok ⟨stack, s.reports⟩) ∧
    Report.message ⟨node, "unexpectedThisNode"⟩ = some "Unexpected \x27this\x27." ∧
    (∀ evs t t', run context t evs = .ok t' →
      ∃ new, t'.reports = t.reports ++ new ∧
        (new.map Report.node).Sublist (thisNodes evs) ∧
        ∀ r ∈ new, r.messageId = "unexpectedThisNode") := by
  have hthis := ThisExpression_of_getCurrent context node s current stack h
  refine ⟨?_, ?_, by simp [Report.message, messages],
    fun evs t t' ht => run_reports context evs t t' ht⟩
  · intro hv
    rw [hthis, hv]
    simp
  · intro hv
    rw [hthis, hv]
    simp

theorem ThisExpression_reports_witness :
    ThisExpression strictContext thisNode ⟨[⟨true, scriptNode, false⟩], []⟩ =
      .ok ⟨[⟨true, scriptNode, false⟩], [] ++ [⟨thisNode, "unexpectedThisNode"⟩]⟩ :=
  (ThisExpression_reports strictContext thisNode ⟨[⟨true, scriptNode, false⟩], []⟩
    ⟨true, scriptNode, false⟩ [⟨true, scriptNode, false⟩] (by decide)).1 rfl

/-! ## Frames on top of the stack: further lemmas -/

theorem getCurrent_frameValid (context : Context) (rest : List Frame) (f : Frame) :
    getCurrent context (rest ++ [f]) =
      match frameValid context f with
      | .error e => .error e
      | .ok v => .ok (⟨true, f.node, v⟩, rest ++ [⟨true, f.node, v⟩]) := by
  rw [getCurrent_concat]
  unfold frameValid
  obtain ⟨i, n, v⟩ := f
  cases i
  · simp
  · simp

theorem Settles.frameValid_eq {context : Context} {f g : Frame} (h : Settles context f g) :
    frameValid context g = frameValid context f := by
  rcases h with rfl | ⟨hf, v, hv, rfl⟩
  · rfl
  · simp [frameValid, hf, hv]

theorem ThisExpression_top (context : Context) (thisN : Node) (s : State)
    (pre : List Frame) (g : Frame) (hs : s.stack = pre ++ [g]) :
    ThisExpression context thisN s =
      match frameValid context g with
      | .error e => .error e
      | .ok v => .ok ⟨pre ++ [⟨true, g.node, v⟩],
          s.reports ++ (if v = true then [] else [⟨thisN, "unexpectedThisNode"⟩])⟩ := by
  cases hv : frameValid context g with
  | error e =>
    unfold ThisExpression
    rw [hs, getCurrent_frameValid, hv]
  | ok v =>
    have hcur : getCurrent context s.stack =
        .ok (⟨true, g.node, v⟩, pre ++ [⟨true, g.node, v⟩]) := by
      rw [hs, getCurrent_frameValid, hv]
    rw [ThisExpression_of_getCurrent context thisN s _ _ hcur]

/-- After the entry of a function and a well-bracketed piece of traversal
inside it, the stack is the old one with the frame of the function on top,
at most settled. -/
theorem enter_nested (context : Context) (node : Node) (e : Event) (s s' : State)
    (inner : List Event)
    (he : e = .functionDeclaration node ∨ e = .functionExpression node)
    (hin : nesting 0 inner = some 0)
    (hrun : run context s (e :: inner) = .ok s') :
    ∃ g, s'.stack = s.stack ++ [g] ∧
      Settles context ⟨!(context.getScope node).isStrict, node, true⟩ g := by
  obtain ⟨s₁, hstep, hrest⟩ := run_cons_ok context s s' _ inner hrun
  have hs₁ : s₁ = ⟨s.stack ++ [⟨!(context.getScope node).isStrict, node, true⟩], s.reports⟩ := by
    rcases he with rfl | rfl <;> · cases hstep; rfl
  subst hs₁
  obtain ⟨g, above, hg, hlen, hset⟩ :=
    run_nested context s.stack inner _ [] s.reports 0 s' hin hrest
  have habove : above = [] := List.length_eq_zero.mp hlen
  subst habove
  exact ⟨g, hg, hset⟩

/-- The outcome of a `this` visit directly inside a function, in terms of the
facts at the entry of the function. -/
theorem this_in_function (context : Context) (node thisN : Node) (e : Event) (s s' : State)
    (inner : List Event)
    (he : e = .functionDeclaration node ∨ e = .functionExpression node)
    (hin : nesting 0 inner = some 0)
    (hrun : run context s (e :: inner) = .ok s') :
    ThisExpression context thisN s' =
      match (if (context.getScope node).isStrict = true then lazyValid context node
             else .ok true) with
      | .error err => .error err
      | .ok v => .ok ⟨s.stack ++ [⟨true, node, v⟩],
          s'.reports ++ (if v = true then [] else [⟨thisN, "unexpectedThisNode"⟩])⟩ := by
  obtain ⟨g, hg, hset⟩ := enter_nested context node e s s' inner he hin hrun
  rw [ThisExpression_top context thisN s' s.stack g hg, hset.frameValid_eq, hset.node_eq]
  cases hstrict : (context.getScope node).isStrict <;> simp [frameValid]

theorem lazyValid_eq_false_iff (context : Context) (node : Node) :
    lazyValid context node = .ok false ↔
      context.isDefaultThisBinding node (capIsConstructor context) = true ∧
        isListener node = .ok false := by
  unfold lazyValid
  cases context.isDefaultThisBinding node (capIsConstructor context) <;> simp

theorem isListener_ok_true_iff_shape (node : Node) :
    isListener node = .ok true ↔ node.type = "FunctionExpression" ∧ ListenerShape node := by
  by_cases hty : node.type = "FunctionExpression"
  · rw [isListener_ok_true_iff node hty]
    exact ⟨fun h => ⟨hty, h⟩, fun h => h.2⟩
  · constructor
    · intro h
      unfold isListener at h
      simp [hty] at h
    · intro h
      exact (hty h.1).elim

theorem staticListenerShape_iff (node : Node)
    (hstatic : ∀ callExp callee, node.parent = some callExp →
      callExp.callee = some callee → callee.computed = false) :
    StaticListenerShape node ↔ ListenerShape node := by
  constructor
  · rintro ⟨callExp, callee, property, name, h1, h2, h3, h4, -, h6, h7, h8, h9⟩
    exact ⟨callExp, callee, property, name, h1, h2, h3, h4, h6, h7, h8, h9⟩
  · rintro ⟨callExp, callee, property, name, h1, h2, h3, h4, h6, h7, h8, h9⟩
    exact ⟨callExp, callee, property, name, h1, h2, h3, h4, hstatic _ _ h1 h3, h6, h7, h8, h9⟩

theorem append_singleton_ne_self {α : Type} (l : List α) (a : α) : l ++ [a] ≠ l := by
  intro h
  have := congrArg List.length h
  simp at this

/-! ## The claims, continued -/

/-- Claim C11: a function declaration or function expression entered while the
ambient scope is not strict gets an initialised, valid frame; after any
well-bracketed piece of traversal inside it that did not abort, that frame is
on top unchanged and a `this` visit returns without a diagnostic, whatever the
default-binding predicate, `isListener` and `capIsConstructor` are. -/
theorem sloppy_this_not_reported (context : Context) (node thisN : Node) (e : Event)
    (s s' : State) (inner : List Event)
    (he : e = .functionDeclaration node ∨ e = .functionExpression node)
    (hsloppy : (context.getScope node).isStrict = false)
    (hin : nesting 0 inner = some 0)
    (hrun : run context s (e :: inner) = .ok s') :
    s'.stack = s.stack ++ [⟨true, node, true⟩] ∧
      ThisExpression context thisN s' = .ok s' := by
  obtain ⟨g, hg, hset⟩ := enter_nested context node e s s' inner he hin hrun
  have hgf : g = ⟨true, node, true⟩ := by
    rw [hsloppy] at hset
    exact hset.of_init rfl
  subst hgf
  refine ⟨hg, ?_⟩
  rw [this_in_function context node thisN e s s' inner he hin hrun]
  simp only [hsloppy, Bool.false_eq_true, if_false, if_true, List.append_nil]
  rw [← hg]

theorem sloppy_this_not_reported_witness :
    (⟨[⟨true, scriptNode, true⟩, ⟨true, declFn, true⟩], []⟩ : State).stack =
        (⟨[⟨true, scriptNode, true⟩], []⟩ : State).stack ++ [⟨true, declFn, true⟩] ∧
      ThisExpression sloppyContext thisNode
          ⟨[⟨true, scriptNode, true⟩, ⟨true, declFn, true⟩], []⟩ =
        .ok ⟨[⟨true, scriptNode, true⟩, ⟨true, declFn, true⟩], []⟩ :=
  sloppy_this_not_reported sloppyContext declFn thisNode (.functionDeclaration declFn)
    ⟨[⟨true, scriptNode, true⟩], []⟩
    ⟨[⟨true, scriptNode, true⟩, ⟨true, declFn, true⟩], []⟩
    [.thisExpression thisNode] (Or.inl rfl) (by decide) (by decide) (by decide)

/-- Claim C12 as stated fails: in a strict scope, a function that is not a
listener callback and for which the default-binding predicate does not hold
(a method, say) is entered and a `this` directly inside it is not reported. -/
theorem strict_bound_function_not_reported :
    (strictBoundContext.getScope fooFn).isStrict = true ∧
      ¬ StaticListenerShape fooFn ∧ ¬ ListenerShape fooFn ∧
      run strictBoundContext ⟨[⟨true, scriptNode, false⟩], []⟩
          [.functionExpression fooFn, .thisExpression thisNode] =
        .ok ⟨[⟨true, scriptNode, false⟩, ⟨true, fooFn, true⟩], []⟩ := by
  have hno : ¬ ListenerShape fooFn := by
    intro h
    have := (isListener_ok_true_iff fooFn rfl).mpr h
    revert this
    decide
  have hstatic : ∀ callExp callee, fooFn.parent = some callExp →
      callExp.callee = some callee → callee.computed = false := by
    intro callExp callee hp hc
    cases hp
    cases hc
    rfl
  refine ⟨rfl, ?_, hno, by decide⟩
  intro h
  exact hno ((staticListenerShape_iff fooFn hstatic).mp h)

/-- Claim C12, amended: a function is entered under a strict scope, the callee
of its parent call (if any) is not a computed access, and a `this` visit
directly inside it returns. Then the visit adds a diagnostic exactly when the
default-binding predicate holds for the function and the function is not a
function expression passed as the second of exactly two arguments to `x.on`,
`x.once`, `x.addListener`, `x.prependListener` or `x.prependOnceListener`;
otherwise it adds none. -/
theorem strict_this_reported_iff (context : Context) (node thisN : Node) (e : Event)
    (s s' s'' : State) (inner : List Event)
    (he : e = .functionDeclaration node ∨ e = .functionExpression node)
    (hstrict : (context.getScope node).isStrict = true)
    (hstatic : ∀ callExp callee, node.parent = some callExp →
      callExp.callee = some callee → callee.computed = false)
    (hin : nesting 0 inner = some 0)
    (hrun : run context s (e :: inner) = .ok s')
    (hthis : ThisExpression context thisN s' = .ok s'') :
    (s''.reports = s'.reports ++ [⟨thisN, "unexpectedThisNode"⟩] ↔
      (context.isDefaultThisBinding node (capIsConstructor context) = true ∧
        ¬ (node.type = "FunctionExpression" ∧ StaticListenerShape node))) ∧
    (¬ (context.isDefaultThisBinding node (capIsConstructor context) = true ∧
        ¬ (node.type = "FunctionExpression" ∧ StaticListenerShape node)) →
      s''.reports = s'.reports) := by
  rw [staticListenerShape_iff node hstatic, ← isListener_ok_true_iff_shape]
  rw [this_in_function context node thisN e s s' inner he hin hrun, if_pos hstrict] at hthis
  cases hv : lazyValid context node with
  | error err => rw [hv] at hthis; cases hthis
  | ok v =>
    rw [hv] at hthis
    cases hthis
    have hkey : v = false ↔
        (context.isDefaultThisBinding node (capIsConstructor context) = true ∧
          ¬ isListener node = .ok true) := by
      unfold lazyValid at hv
      cases hd : context.isDefaultThisBinding node (capIsConstructor context)
      · rw [hd] at hv
        simp only [Bool.not_false, if_true] at hv
        cases hv
        simp
      · rw [hd] at hv
        simp only [Bool.not_true, Bool.false_eq_true, if_false] at hv
        rw [hv]
        cases v <;> simp
    cases v
    · have hk := hkey.mp rfl
      simp only [Bool.false_eq_true, if_false]
      exact ⟨⟨fun _ => hk, fun _ => trivial⟩, fun hn => (hn hk).elim⟩
    · have hk : ¬ (context.isDefaultThisBinding node (capIsConstructor context) = true ∧
          ¬ isListener node = .ok true) := fun h => by
        have := hkey.mpr h
        cases this
      simp only [if_true, List.append_nil]
      refine ⟨⟨fun h => ?_, fun h => (hk h).elim⟩, fun _ => trivial⟩
      exact (append_singleton_ne_self _ _ h.symm).elim

theorem strict_this_reported_iff_witness :
    ((⟨[⟨true, scriptNode, false⟩, ⟨true, fooFn, false⟩],
        [⟨thisNode, "unexpectedThisNode"⟩]⟩ : State).reports =
        (⟨[⟨true, scriptNode, false⟩, ⟨false, fooFn, true⟩], []⟩ : State).reports ++
          [⟨thisNode, "unexpectedThisNode"⟩] ↔
      (strictContext.isDefaultThisBinding fooFn (capIsConstructor strictContext) = true ∧
        ¬ (fooFn.type = "FunctionExpression" ∧ StaticListenerShape fooFn))) ∧
    (¬ (strictContext.isDefaultThisBinding fooFn (capIsConstructor strictContext) = true ∧
        ¬ (fooFn.type = "FunctionExpression" ∧ StaticListenerShape fooFn)) →
      (⟨[⟨true, scriptNode, false⟩, ⟨true, fooFn, false⟩],
        [⟨thisNode, "unexpectedThisNode"⟩]⟩ : State).reports =
        (⟨[⟨true, scriptNode, false⟩, ⟨false, fooFn, true⟩], []⟩ : State).reports) :=
  strict_this_reported_iff strictContext fooFn thisNode (.functionExpression fooFn)
    ⟨[⟨true, scriptNode, false⟩], []⟩
    ⟨[⟨true, scriptNode, false⟩, ⟨false, fooFn, true⟩], []⟩
    ⟨[⟨true, scriptNode, false⟩, ⟨true, fooFn, false⟩], [⟨thisNode, "unexpectedThisNode"⟩]⟩
    [] (Or.inr rfl) (by decide)
    (by
      intro callExp callee hp hc
      cases hp
      cases hc
      rfl)
    (by decide) (by decide) (by decide)

/-! ## The lazy stack against the eager reference -/

theorem rootStrict_iff (context : Context) (node : Node) :
    rootStrict context node = true ↔ RootStrict context node := by
  unfold rootStrict RootStrict
  cases (context.getScope node).childScopes.head? with
  | none => simp
  | some child => simp [or_assoc]

theorem flagOf_entered (context : Context) (node : Node) :
    flagOf context ⟨!(context.getScope node).isStrict, node, true⟩ =
      !(eagerReported context node) := by
  unfold flagOf frameValid eagerReported lazyValid
  cases (context.getScope node).isStrict
  · simp
  · cases context.isDefaultThisBinding node (capIsConstructor context)
    · simp
    · cases hl : isListener node with
      | error err => simp
      | ok b => cases b <;> simp

theorem eagerRun_cons_ok (context : Context) (s s₁ : EagerState) (e : Event) (es : List Event)
    (h : eagerStep context s e = .ok s₁) :
    eagerRun context s (e :: es) = eagerRun context s₁ es := by
  conv_lhs => unfold eagerRun
  rw [h]

/-- One step of the rule that returns is matched by the same step of the
reference on the states they stand for. -/
theorem step_toEager (context : Context) (s s' : State) (e : Event)
    (h : step context s e = .ok s') :
    eagerStep context (toEager context s) e = .ok (toEager context s') := by
  cases e with
  | program node =>
    obtain ⟨valid, hs, hvalid⟩ := Program_ok context node s s' h
    subst hs
    have hv : valid = !(rootStrict context node) := by
      cases hr : rootStrict context node
      · cases valid
        · have := (rootStrict_iff context node).mpr (hvalid.mp rfl)
          rw [hr] at this
          cases this
        · rfl
      · have := hvalid.mpr ((rootStrict_iff context node).mp hr)
        rw [this]
        rfl
    simp [eagerStep, toEager, flagOf, frameValid, hv]
  | programExit =>
    cases h
    simp [eagerStep, toEager, ProgramExit, List.map_dropLast]
  | functionDeclaration node =>
    cases h
    simp [eagerStep, toEager, enterFunction, flagOf_entered]
  | functionExpression node =>
    cases h
    simp [eagerStep, toEager, enterFunction, flagOf_entered]
  | functionDeclarationExit =>
    cases h
    simp [eagerStep, toEager, exitFunction, List.map_dropLast]
  | functionExpressionExit =>
    cases h
    simp [eagerStep, toEager, exitFunction, List.map_dropLast]
  | thisExpression node =>
    have h' : ThisExpression context node s = .ok s' := h
    rcases List.eq_nil_or_concat s.stack with hnil | ⟨pre, g, hg⟩
    · unfold ThisExpression getCurrent at h'
      rw [hnil] at h'
      simp at h'
    · rw [List.concat_eq_append] at hg
      rw [ThisExpression_top context node s pre g hg] at h'
      cases hv : frameValid context g with
      | error err => rw [hv] at h'; cases h'
      | ok v =>
        rw [hv] at h'
        cases h'
        have hflag : flagOf context g = v := by simp [flagOf, hv]
        have hnew : flagOf context ⟨true, g.node, v⟩ = v := by simp [flagOf, frameValid]
        simp [eagerStep, toEager, hg, hflag, hnew]

/-- A run of the rule that returns is matched by the run of the reference:
same diagnostics, and a stack of the flags the frames stand for. -/
theorem run_toEager (context : Context) :
    ∀ (evs : List Event) (s s' : State), run context s evs = .ok s' →
      eagerRun context (toEager context s) evs = .ok (toEager context s') := by
  intro evs
  induction evs with
  | nil =>
    intro s s' h
    unfold run at h
    cases h
    rfl
  | cons e es ih =>
    intro s s' h
    obtain ⟨s₁, hstep, hrun⟩ := run_cons_ok context s s' e es h
    rw [eagerRun_cons_ok context _ _ e es (step_toEager context s s₁ e hstep)]
    exact ih s₁ s' hrun

theorem eagerReported_iff (context : Context) (node : Node) :
    eagerReported context node = true ↔
      ((context.getScope node).isStrict = true ∧
        context.isDefaultThisBinding node (capIsConstructor context) = true ∧
        isListener node = .ok false) := by
  unfold eagerReported
  simp [and_assoc]

/-- The verdict of a `this` visit directly inside a function, read off the
facts at the entry of the function. -/
theorem this_reported_iff (context : Context) (node thisN : Node) (e : Event)
    (s s' : State) (inner : List Event)
    (he : e = .functionDeclaration node ∨ e = .functionExpression node)
    (hin : nesting 0 inner = some 0)
    (hrun : run context s (e :: inner) = .ok s') :
    (∃ s'', ThisExpression context thisN s' = .ok s'' ∧
        s''.reports = s'.reports ++ [⟨thisN, "unexpectedThisNode"⟩]) ↔
      ((context.getScope node).isStrict = true ∧
        context.isDefaultThisBinding node (capIsConstructor context) = true ∧
        isListener node = .ok false) := by
  rw [this_in_function context node thisN e s s' inner he hin hrun]
  cases hstrict : (context.getScope node).isStrict
  · simp only [Bool.false_eq_true, if_false, if_true, List.append_nil, false_and, iff_false]
    rintro ⟨s'', hs'', hrep⟩
    cases hs''
    exact append_singleton_ne_self _ _ hrep.symm
  · simp only [if_true, true_and]
    rw [← lazyValid_eq_false_iff]
    cases hv : lazyValid context node with
    | error err =>
      constructor
      · rintro ⟨s'', hs'', -⟩
        cases hs''
      · intro h
        cases h
    | ok v =>
      cases v
      · constructor
        · intro _
          rfl
        · intro _
          exact ⟨_, rfl, by simp⟩
      · constructor
        · rintro ⟨s'', hs'', hrep⟩
          cases hs''
          simp only [if_true, List.append_nil] at hrep
          exact (append_singleton_ne_self _ _ hrep.symm).elim
        · intro h
          cases h

/-- Claim C13 (lazy equals eager): after the entry of a function at any depth
of the stack and any well-bracketed piece of traversal inside it, whatever
`this` visits it contains, a `this` visit adds a diagnostic exactly when the
ambient scope at the entry was strict, the default-binding predicate holds
for the function and `isListener` is false for it. This is the condition of
the eager reference, and every run of the rule that returns is matched, event
by event, by the run of the reference with the same diagnostics. -/
theorem lazy_equals_eager (context : Context) (node thisN : Node) (e : Event)
    (s s' : State) (inner : List Event)
    (he : e = .functionDeclaration node ∨ e = .functionExpression node)
    (hin : nesting 0 inner = some 0)
    (hrun : run context s (e :: inner) = .ok s') :
    ((∃ s'', ThisExpression context thisN s' = .ok s'' ∧
        s''.reports = s'.reports ++ [⟨thisN, "unexpectedThisNode"⟩]) ↔
      ((context.getScope node).isStrict = true ∧
        context.isDefaultThisBinding node (capIsConstructor context) = true ∧
        isListener node = .ok false)) ∧
    (eagerReported context node = true ↔
      ((context.getScope node).isStrict = true ∧
        context.isDefaultThisBinding node (capIsConstructor context) = true ∧
        isListener node = .ok false)) ∧
    (∀ evs t t', run context t evs = .ok t' →
      eagerRun context (toEager context t) evs = .ok (toEager context t') ∧
      (toEager context t').reports = t'.reports) :=
  ⟨this_reported_iff context node thisN e s s' inner he hin hrun,
   eagerReported_iff context node,
   fun evs t t' h => ⟨run_toEager context evs t t' h, rfl⟩⟩

theorem lazy_equals_eager_witness :
    ((∃ s'', ThisExpression strictContext thisNode
          ⟨[⟨true, scriptNode, false⟩, ⟨true, declFn, false⟩, ⟨true, fooFn, false⟩],
            [⟨thisNode, "unexpectedThisNode"⟩]⟩ = .ok s'' ∧
        s''.reports =
          (⟨[⟨true, scriptNode, false⟩, ⟨true, declFn, false⟩, ⟨true, fooFn, false⟩],
            [⟨thisNode, "unexpectedThisNode"⟩]⟩ : State).reports ++
            [⟨thisNode, "unexpectedThisNode"⟩]) ↔
      ((strictContext.getScope fooFn).isStrict = true ∧
        strictContext.isDefaultThisBinding fooFn (capIsConstructor strictContext) = true ∧
        isListener fooFn = .ok false)) ∧
    (eagerReported strictContext fooFn = true ↔
      ((strictContext.getScope fooFn).isStrict = true ∧
        strictContext.isDefaultThisBinding fooFn (capIsConstructor strictContext) = true ∧
        isListener fooFn = .ok false)) ∧
    (∀ evs t t', run strictContext t evs = .ok t' →
      eagerRun strictContext (toEager strictContext t) evs =
        .ok (toEager strictContext t') ∧
      (toEager strictContext t').reports = t'.reports) :=
  lazy_equals_eager strictContext fooFn thisNode (.functionExpression fooFn)
    ⟨[⟨true, scriptNode, false⟩, ⟨true, declFn, false⟩], []⟩
    ⟨[⟨true, scriptNode, false⟩, ⟨true, declFn, false⟩, ⟨true, fooFn, false⟩],
      [⟨thisNode, "unexpectedThisNode"⟩]⟩
    [.thisExpression thisNode] (Or.inr rfl) (by decide) (by decide)

/-- Claim C14 (stack invariant): a run starts on an empty stack with the entry
of the program and goes on with any piece of a well-bracketed traversal that
leaves `k` functions open. At that point the stack has `k + 1` frames, the
root frame pushed by `Program` is at the bottom, and there is a top frame, so
that `getCurrent` does not read a missing frame. -/
theorem stack_depth_invariant (context : Context) (node : Node) (s₀ s₁ s₂ : State)
    (inner : List Event) (k : Nat)
    (hempty : s₀.stack = [])
    (hp : Program context node s₀ = .ok s₁)
    (hin : nesting 0 inner = some k)
    (hrun : run context s₁ inner = .ok s₂) :
    s₂.stack.length = k + 1 ∧
      (∃ valid rest, s₁.stack = [⟨true, node, valid⟩] ∧
        s₂.stack = ⟨true, node, valid⟩ :: rest) ∧
      (∃ current, s₂.stack.getLast? = some current) ∧
      s₂.stack ≠ [] := by
  obtain ⟨valid, hs₁, -⟩ := Program_ok context node s₀ s₁ hp
  subst hs₁
  rw [hempty] at hrun
  obtain ⟨g, above, hg, hlen, hset⟩ :=
    run_nested context [] inner ⟨true, node, valid⟩ [] s₀.reports k s₂ hin hrun
  have hgf : g = ⟨true, node, valid⟩ := hset.of_init rfl
  subst hgf
  simp only [List.nil_append] at hg
  refine ⟨by rw [hg]; simp [hlen], ⟨valid, above, by simp [hempty], hg⟩, ?_, by rw [hg]; simp⟩
  rw [hg]
  cases h : (({ init := true, node := node, valid := valid } : Frame) :: above).getLast? with
  | none => simp at h
  | some current => exact ⟨current, rfl⟩

theorem stack_depth_invariant_witness :
    (⟨[⟨true, scriptNode, false⟩, ⟨false, declFn, true⟩], []⟩ : State).stack.length = 1 + 1 ∧
      (∃ valid rest, (⟨[⟨true, scriptNode, false⟩], []⟩ : State).stack =
          [⟨true, scriptNode, valid⟩] ∧
        (⟨[⟨true, scriptNode, false⟩, ⟨false, declFn, true⟩], []⟩ : State).stack =
          ⟨true, scriptNode, valid⟩ :: rest) ∧
      (∃ current,
        (⟨[⟨true, scriptNode, false⟩, ⟨false, declFn, true⟩], []⟩ : State).stack.getLast? =
          some current) ∧
      (⟨[⟨true, scriptNode, false⟩, ⟨false, declFn, true⟩], []⟩ : State).stack ≠ [] :=
  stack_depth_invariant strictContext scriptNode ⟨[], []⟩ ⟨[⟨true, scriptNode, false⟩], []⟩
    ⟨[⟨true, scriptNode, false⟩, ⟨false, declFn, true⟩], []⟩
    [.functionDeclaration declFn] 1 rfl (by decide) (by decide) (by decide)

/-- Claim C16 as stated fails: a function exit and a program exit on an empty
stack return without an error and leave the stack empty. -/
theorem exit_on_empty_stack_absorbed :
    step strictContext ⟨[], []⟩ .functionDeclarationExit = .ok ⟨[], []⟩ ∧
      step strictContext ⟨[], []⟩ .functionExpressionExit = .ok ⟨[], []⟩ ∧
      step strictContext ⟨[], []⟩ .programExit = .ok ⟨[], []⟩ := by
  decide

/-- Claim C16, amended: a function-exit or program-exit event received while
the stack is empty returns without an error and leaves the state as it was
(`pop` on an empty array does nothing); of the events of the rule only a
`this` visit fails on an empty stack. -/
theorem exit_on_empty_stack (context : Context) (s : State) (thisN : Node)
    (hempty : s.stack = []) :
    step context s .functionDeclarationExit = .ok s ∧
      step context s .functionExpressionExit = .ok s ∧
      step context s .programExit = .ok s ∧
      step context s (.thisExpression thisN) = .error .typeError := by
  obtain ⟨stack, reports⟩ := s
  simp only at hempty
  subst hempty
  refine ⟨rfl, rfl, rfl, rfl⟩

theorem exit_on_empty_stack_witness :
    step sloppyContext ⟨[], []⟩ .functionDeclarationExit = .ok ⟨[], []⟩ ∧
      step sloppyContext ⟨[], []⟩ .functionExpressionExit = .ok ⟨[], []⟩ ∧
      step sloppyContext ⟨[], []⟩ .programExit = .ok ⟨[], []⟩ ∧
      step sloppyContext ⟨[], []⟩ (.thisExpression thisNode) = .error .typeError :=
  exit_on_empty_stack sloppyContext ⟨[], []⟩ thisNode rfl

/-- Claim C17: the flag `capIsConstructor` is true when no options object is
supplied and when the option is missing from the supplied object, and it is
false exactly when the supplied option is the boolean `false`. -/
theorem capIsConstructor_default (context : Context) :
    (context.options = none → capIsConstructor context = true) ∧
      (∀ options, context.options = some options → options.capIsConstructor = none →
        capIsConstructor context = true) ∧
      (capIsConstructor context = false ↔
        ∃ options, context.options = some options ∧
          options.capIsConstructor = some false) := by
  unfold capIsConstructor
  cases hopt : context.options with
  | none => simp
  | some options =>
    cases hcap : options.capIsConstructor with
    | none => simp [hcap]
    | some b => cases b <;> simp [hcap]

/-- Claim C18 as stated fails: for a function expression in listener position
of a call whose member-expression callee has no `property`, `isListener`
raises a `TypeError`. -/
theorem isListener_raises_without_property :
    isListener noPropertyFn = .error .typeError := by
  decide

/-- Claim C18, amended: `isListener` returns a boolean and does not raise for
every node such that the member-expression callee of its parent, if there is
one, has a `property`, as every member expression of a well-formed tree
has. -/
theorem isListener_total_of_property (node : Node)
    (hprop : ∀ callExp callee, node.parent = some callExp →
      callExp.callee = some callee → callee.type = "MemberExpression" →
      callee.property ≠ none) :
    ∃ b, isListener node = .ok b := by
  obtain ⟨id, type, parent, sourceType⟩ := node
  unfold isListener
  simp only
  split
  · exact ⟨false, rfl⟩
  · match parent with
    | none => exact ⟨false, rfl⟩
    | some ⟨ptype, callee, args⟩ =>
      simp only
      split
      · exact ⟨false, rfl⟩
      · match callee with
        | none => exact ⟨false, rfl⟩
        | some ⟨ctype, computed, property⟩ =>
          simp only
          split
          · exact ⟨false, rfl⟩
          · split
            · exact ⟨false, rfl⟩
            · rename_i hmt _
              have hmt' : ctype = "MemberExpression" := by simpa using hmt
              match property with
              | none => exact (hprop _ _ rfl rfl hmt' rfl).elim
              | some ⟨prtype, name⟩ =>
                match name with
                | none => exact ⟨false, rfl⟩
                | some name => exact ⟨_, rfl⟩

theorem isListener_total_of_property_witness :
    ∃ b, isListener listenerFn = .ok b :=
  isListener_total_of_property listenerFn (by
    intro callExp callee hp hc _
    cases hp
    cases hc
    simp [calleeOn])

theorem capIsConstructor_default_witness :
    capIsConstructor strictContext = true ∧
      capIsConstructor (withCap strictContext false) = false :=
  ⟨(capIsConstructor_default strictContext).1 rfl,
   (capIsConstructor_default (withCap strictContext false)).2.2.mpr ⟨_, rfl, rfl⟩⟩

theorem run_append_split (context : Context) (es₁ es₂ : List Event) :
    ∀ (s s' : State), run context s (es₁ ++ es₂) = .ok s' →
      ∃ s₁, run context s es₁ = .ok s₁ ∧ run context s₁ es₂ = .ok s' := by
  induction es₁ with
  | nil =>
    intro s s' h
    exact ⟨s, by unfold run; rfl, h⟩
  | cons e es ih =>
    intro s s' h
    rw [List.cons_append] at h
    obtain ⟨t, ht, hrun⟩ := run_cons_ok context s s' e (es ++ es₂) h
    obtain ⟨s₁, h1, h2⟩ := ih t s' hrun
    refine ⟨s₁, ?_, h2⟩
    conv_lhs => unfold run
    rw [ht]
    exact h1

/-- Claim C19 (frame isolation): entering a function, running any
well-bracketed piece of traversal inside it, `this` visits and nested
functions included, and leaving it again gives back the stack of before the
entry, frame for frame; so `getCurrent`, which decides whether a `this` in
the enclosing function or at top level is reported, answers as before. -/
theorem frame_isolation (context : Context) (node : Node) (e x : Event) (s s' : State)
    (inner : List Event)
    (he : (e = .functionDeclaration node ∧ x = .functionDeclarationExit) ∨
      (e = .functionExpression node ∧ x = .functionExpressionExit))
    (hin : nesting 0 inner = some 0)
    (hrun : run context s (e :: inner ++ [x]) = .ok s') :
    s'.stack = s.stack ∧ getCurrent context s'.stack = getCurrent context s.stack := by
  have hsplit : run context s ((e :: inner) ++ [x]) = .ok s' := by
    simpa using hrun
  obtain ⟨s₁, h1, h2⟩ := run_append_split context (e :: inner) [x] s s' hsplit
  have he' : e = .functionDeclaration node ∨ e = .functionExpression node := by
    rcases he with ⟨h, -⟩ | ⟨h, -⟩
    · exact Or.inl h
    · exact Or.inr h
  obtain ⟨g, hg, -⟩ := enter_nested context node e s s₁ inner he' hin h1
  obtain ⟨s₂, hstep, hnil⟩ := run_cons_ok context s₁ s' x [] h2
  unfold run at hnil
  cases hnil
  have hx : step context s₁ x = .ok ⟨exitFunction s₁.stack, s₁.reports⟩ := by
    rcases he with ⟨-, h⟩ | ⟨-, h⟩ <;> · rw [h]; rfl
  rw [hx] at hstep
  cases hstep
  have hst : exitFunction s₁.stack = s.stack := by
    rw [hg]
    unfold exitFunction
    exact List.dropLast_concat
  simp only [hst, and_self]

theorem frame_isolation_witness :
    (⟨[⟨true, scriptNode, false⟩, ⟨false, declFn, true⟩], []⟩ : State).stack =
        (⟨[⟨true, scriptNode, false⟩, ⟨false, declFn, true⟩], []⟩ : State).stack ∧
      getCurrent strictContext
          (⟨[⟨true, scriptNode, false⟩, ⟨false, declFn, true⟩],
            [⟨thisNode, "unexpectedThisNode"⟩]⟩ : State).stack =
        getCurrent strictContext
          (⟨[⟨true, scriptNode, false⟩, ⟨false, declFn, true⟩], []⟩ : State).stack :=
  frame_isolation strictContext fooFn (.functionExpression fooFn) .functionExpressionExit
    ⟨[⟨true, scriptNode, false⟩, ⟨false, declFn, true⟩], []⟩
    ⟨[⟨true, scriptNode, false⟩, ⟨false, declFn, true⟩], [⟨thisNode, "unexpectedThisNode"⟩]⟩
    [.thisExpression thisNode] (Or.inr ⟨rfl, rfl⟩) (by decide) (by decide)

/-! ## Two runs that differ in `capIsConstructor` -/

theorem forall₂_concat {R : Bool → Bool → Prop} {l₁ l₂ : List Bool} {a b : Bool}
    (h : List.Forall₂ R l₁ l₂) (hab : R a b) : List.Forall₂ R (l₁ ++ [a]) (l₂ ++ [b]) :=
  List.rel_append h (List.Forall₂.cons hab List.Forall₂.nil)

theorem forall₂_dropLast {R : Bool → Bool → Prop} {l₁ l₂ : List Bool}
    (h : List.Forall₂ R l₁ l₂) : List.Forall₂ R l₁.dropLast l₂.dropLast := by
  rw [List.dropLast_eq_take, List.dropLast_eq_take, h.length_eq]
  exact List.forall₂_take _ h

theorem forall₂_getLast? {R : Bool → Bool → Prop} {l₁ l₂ : List Bool}
    (h : List.Forall₂ R l₁ l₂) :
    (l₁.getLast? = none ∧ l₂.getLast? = none) ∨
      ∃ a b, l₁.getLast? = some a ∧ l₂.getLast? = some b ∧ R a b := by
  have hrev := List.forall₂_reverse_iff.mpr h
  rw [List.getLast?_eq_head?_reverse, List.getLast?_eq_head?_reverse]
  generalize l₁.reverse = r₁ at hrev
  generalize l₂.reverse = r₂ at hrev
  cases hrev with
  | nil => exact Or.inl ⟨rfl, rfl⟩
  | cons hab _ => exact Or.inr ⟨_, _, rfl, rfl, hab⟩

/-- The reference under two hosts that agree on scopes and dialect and of
which the second reports at least the functions the first reports: frame by
frame the second is valid only where the first is, and the diagnostics of the
first are among those of the second. -/
theorem eagerStep_mono (cT cF : Context)
    (hscope : cT.getScope = cF.getScope) (hfeat : cT.ecmaFeatures = cF.ecmaFeatures)
    (hrep : ∀ node, eagerReported cT node = true → eagerReported cF node = true)
    (e : Event) (a b a' b' : EagerState)
    (hstack : List.Forall₂ ValidWhenever a.stack b.stack)
    (hreports : a.reports.Sublist b.reports)
    (ha : eagerStep cT a e = .ok a') (hb : eagerStep cF b e = .ok b') :
    List.Forall₂ ValidWhenever a'.stack b'.stack ∧ a'.reports.Sublist b'.reports := by
  have hentered : ∀ node,
      ValidWhenever (!(eagerReported cT node)) (!(eagerReported cF node)) := by
    intro node hF
    cases hT : eagerReported cT node
    · rfl
    · rw [hrep node hT] at hF
      cases hF
  cases e with
  | program node =>
    cases ha
    cases hb
    have hroot : rootStrict cT node = rootStrict cF node := by
      unfold rootStrict
      rw [hscope, hfeat]
    exact ⟨forall₂_concat hstack (by rw [hroot]; exact fun h => h), hreports⟩
  | programExit =>
    cases ha
    cases hb
    exact ⟨forall₂_dropLast hstack, hreports⟩
  | functionDeclaration node =>
    cases ha
    cases hb
    exact ⟨forall₂_concat hstack (hentered node), hreports⟩
  | functionExpression node =>
    cases ha
    cases hb
    exact ⟨forall₂_concat hstack (hentered node), hreports⟩
  | functionDeclarationExit =>
    cases ha
    cases hb
    exact ⟨forall₂_dropLast hstack, hreports⟩
  | functionExpressionExit =>
    cases ha
    cases hb
    exact ⟨forall₂_dropLast hstack, hreports⟩
  | thisExpression node =>
    unfold eagerStep at ha hb
    rcases forall₂_getLast? hstack with ⟨hna, -⟩ | ⟨x, y, hx, hy, hxy⟩
    · rw [hna] at ha
      cases ha
    · rw [hx] at ha
      rw [hy] at hb
      cases ha
      cases hb
      refine ⟨hstack, ?_⟩
      cases y
      · simp only [Bool.false_eq_true, if_false]
        cases x
        · simp only [Bool.false_eq_true, if_false]
          exact hreports.append (List.Sublist.refl _)
        · simp only [if_true, List.append_nil]
          exact hreports.trans (List.sublist_append_left _ _)
      · have hxt : x = true := hxy rfl
        subst hxt
        simp only [if_true, List.append_nil]
        exact hreports

theorem eagerRun_cons_split (context : Context) (s s' : EagerState) (e : Event)
    (es : List Event) (h : eagerRun context s (e :: es) = .ok s') :
    ∃ s₁, eagerStep context s e = .ok s₁ ∧ eagerRun context s₁ es = .ok s' := by
  cases hs : eagerStep context s e with
  | error err =>
    unfold eagerRun at h
    rw [hs] at h
    cases h
  | ok s₁ =>
    unfold eagerRun at h
    rw [hs] at h
    exact ⟨s₁, rfl, h⟩

theorem eagerRun_mono (cT cF : Context)
    (hscope : cT.getScope = cF.getScope) (hfeat : cT.ecmaFeatures = cF.ecmaFeatures)
    (hrep : ∀ node, eagerReported cT node = true → eagerReported cF node = true) :
    ∀ (evs : List Event) (a b a' b' : EagerState),
      List.Forall₂ ValidWhenever a.stack b.stack → a.reports.Sublist b.reports →
      eagerRun cT a evs = .ok a' → eagerRun cF b evs = .ok b' →
      List.Forall₂ ValidWhenever a'.stack b'.stack ∧ a'.reports.Sublist b'.reports := by
  intro evs
  induction evs with
  | nil =>
    intro a b a' b' hs hr ha hb
    unfold eagerRun at ha hb
    cases ha
    cases hb
    exact ⟨hs, hr⟩
  | cons e es ih =>
    intro a b a' b' hs hr ha hb
    obtain ⟨a₁, ha₁, harest⟩ := eagerRun_cons_split cT a a' e es ha
    obtain ⟨b₁, hb₁, hbrest⟩ := eagerRun_cons_split cF b b' e es hb
    obtain ⟨hs₁, hr₁⟩ := eagerStep_mono cT cF hscope hfeat hrep e a b a₁ b₁ hs hr ha₁ hb₁
    exact ih a₁ b₁ a' b' hs₁ hr₁ harest hbrest

theorem capIsConstructor_withCap (context : Context) (cap : Bool) :
    capIsConstructor (withCap context cap) = cap := by
  cases cap <;> rfl

theorem eagerReported_withCap_mono (context : Context)
    (hmono : ∀ node, context.isDefaultThisBinding node true = true →
      context.isDefaultThisBinding node false = true) (node : Node) :
    eagerReported (withCap context true) node = true →
      eagerReported (withCap context false) node = true := by
  rw [eagerReported_iff, eagerReported_iff, capIsConstructor_withCap,
    capIsConstructor_withCap]
  rintro ⟨h1, h2, h3⟩
  exact ⟨h1, hmono node h2, h3⟩

theorem flagOf_withCap_mono (context : Context)
    (hmono : ∀ node, context.isDefaultThisBinding node true = true →
      context.isDefaultThisBinding node false = true) (f : Frame) :
    ValidWhenever (flagOf (withCap context true) f) (flagOf (withCap context false) f) := by
  unfold ValidWhenever flagOf frameValid lazyValid
  rw [capIsConstructor_withCap, capIsConstructor_withCap]
  cases hi : f.init
  · have hT : (withCap context true).isDefaultThisBinding = context.isDefaultThisBinding := rfl
    have hF : (withCap context false).isDefaultThisBinding = context.isDefaultThisBinding := rfl
    rw [hT, hF]
    cases hdT : context.isDefaultThisBinding f.node true
    · simp
    · rw [hmono f.node hdT]
      simp
  · simp

/-- After two runs over the same events from the same state, one with
`capIsConstructor` on, one with it off, the frames of the second stand for
valid only where those of the first do, and the first reported a sublist of
what the second reported. -/
theorem runs_withCap (context : Context)
    (hmono : ∀ node, context.isDefaultThisBinding node true = true →
      context.isDefaultThisBinding node false = true)
    (evs : List Event) (s sT sF : State)
    (hT : run (withCap context true) s evs = .ok sT)
    (hF : run (withCap context false) s evs = .ok sF) :
    List.Forall₂ ValidWhenever (toEager (withCap context true) sT).stack
        (toEager (withCap context false) sF).stack ∧
      sT.reports.Sublist sF.reports := by
  have hinit : List.Forall₂ ValidWhenever (toEager (withCap context true) s).stack
      (toEager (withCap context false) s).stack := by
    unfold toEager
    simp only
    rw [List.forall₂_map_left_iff, List.forall₂_map_right_iff, List.forall₂_same]
    intro f _
    exact flagOf_withCap_mono context hmono f
  exact eagerRun_mono (withCap context true) (withCap context false) rfl rfl
    (eagerReported_withCap_mono context hmono) evs _ _ _ _ hinit (List.Sublist.refl _)
    (run_toEager _ evs s sT hT) (run_toEager _ evs s sF hF)

/-- A `this` visit that is reported under the first of two related states is
reported under the second, if it returns there. -/
theorem this_withCap (context : Context) (thisN : Node) (sT sF sT' sF' : State)
    (hstack : List.Forall₂ ValidWhenever (toEager (withCap context true) sT).stack
      (toEager (withCap context false) sF).stack)
    (hT : ThisExpression (withCap context true) thisN sT = .ok sT')
    (hrep : sT'.reports = sT.reports ++ [⟨thisN, "unexpectedThisNode"⟩])
    (hF : ThisExpression (withCap context false) thisN sF = .ok sF') :
    sF'.reports = sF.reports ++ [⟨thisN, "unexpectedThisNode"⟩] := by
  have hT' := step_toEager (withCap context true) sT sT' (.thisExpression thisN) hT
  have hF' := step_toEager (withCap context false) sF sF' (.thisExpression thisN) hF
  unfold eagerStep at hT' hF'
  rcases forall₂_getLast? hstack with ⟨hna, -⟩ | ⟨x, y, hx, hy, hxy⟩
  · rw [hna] at hT'
    cases hT'
  · rw [hx] at hT'
    rw [hy] at hF'
    have hTr := congrArg EagerState.reports (Except.ok.inj hT')
    have hFr := congrArg EagerState.reports (Except.ok.inj hF')
    simp only [toEager] at hTr hFr
    have hxf : x = false := by
      cases x
      · rfl
      · rw [hrep] at hTr
        simp only [if_true, List.append_nil] at hTr
        exact (append_singleton_ne_self _ _ hTr.symm).elim
    have hyf : y = false := by
      cases y
      · rfl
      · rw [hxy rfl] at hxf
        cases hxf
    rw [hyf] at hFr
    simp only [Bool.false_eq_true, if_false] at hFr
    exact hFr.symm

/-- Claim C15 (monotonicity in `capIsConstructor`): the default-binding
predicate holds with the flag off wherever it holds with the flag on. Then,
for two runs over the same events from the same state that both return, the
diagnostics added with `capIsConstructor` on are a sublist of those added
with it off, and a `this` visit reported after the run with the flag on is
reported after the run with the flag off. -/
theorem capIsConstructor_monotone (context : Context)
    (hmono : ∀ node, context.isDefaultThisBinding node true = true →
      context.isDefaultThisBinding node false = true)
    (evs : List Event) (s sT sF : State)
    (hT : run (withCap context true) s evs = .ok sT)
    (hF : run (withCap context false) s evs = .ok sF) :
    (∃ newT newF, sT.reports = s.reports ++ newT ∧ sF.reports = s.reports ++ newF ∧
      newT.Sublist newF) ∧
    (∀ thisN sT' sF',
      ThisExpression (withCap context true) thisN sT = .ok sT' →
      sT'.reports = sT.reports ++ [⟨thisN, "unexpectedThisNode"⟩] →
      ThisExpression (withCap context false) thisN sF = .ok sF' →
      sF'.reports = sF.reports ++ [⟨thisN, "unexpectedThisNode"⟩]) := by
  obtain ⟨hstack, hsub⟩ := runs_withCap context hmono evs s sT sF hT hF
  constructor
  · obtain ⟨newT, hnT, -, -⟩ := run_reports _ evs s sT hT
    obtain ⟨newF, hnF, -, -⟩ := run_reports _ evs s sF hF
    refine ⟨newT, newF, hnT, hnF, ?_⟩
    rw [hnT, hnF] at hsub
    exact (List.append_sublist_append_left _).mp hsub
  · intro thisN sT' sF' h1 h2 h3
    exact this_withCap context thisN sT sF sT' sF' hstack h1 h2 h3

theorem capIsConstructor_monotone_witness :
    (∃ newT newF,
      (⟨[⟨true, scriptNode, false⟩, ⟨true, declFn, true⟩], []⟩ : State).reports =
        (⟨[⟨true, scriptNode, false⟩], []⟩ : State).reports ++ newT ∧
      (⟨[⟨true, scriptNode, false⟩, ⟨true, declFn, false⟩],
        [⟨thisNode, "unexpectedThisNode"⟩]⟩ : State).reports =
        (⟨[⟨true, scriptNode, false⟩], []⟩ : State).reports ++ newF ∧
      newT.Sublist newF) ∧
    (∀ thisN sT' sF',
      ThisExpression (withCap capContext true) thisN
        ⟨[⟨true, scriptNode, false⟩, ⟨true, declFn, true⟩], []⟩ = .ok sT' →
      sT'.reports =
        (⟨[⟨true, scriptNode, false⟩, ⟨true, declFn, true⟩], []⟩ : State).reports ++
          [⟨thisN, "unexpectedThisNode"⟩] →
      ThisExpression (withCap capContext false) thisN
        ⟨[⟨true, scriptNode, false⟩, ⟨true, declFn, false⟩],
          [⟨thisNode, "unexpectedThisNode"⟩]⟩ = .ok sF' →
      sF'.reports =
        (⟨[⟨true, scriptNode, false⟩, ⟨true, declFn, false⟩],
          [⟨thisNode, "unexpectedThisNode"⟩]⟩ : State).reports ++
          [⟨thisN, "unexpectedThisNode"⟩]) :=
  capIsConstructor_monotone capContext (by intro node h; cases h)
    [.functionDeclaration declFn, .thisExpression thisNode]
    ⟨[⟨true, scriptNode, false⟩], []⟩
    ⟨[⟨true, scriptNode, false⟩, ⟨true, declFn, true⟩], []⟩
    ⟨[⟨true, scriptNode, false⟩, ⟨true, declFn, false⟩], [⟨thisNode, "unexpectedThisNode"⟩]⟩
    (by decide) (by decide)

end NoInvalidThis
